import Mathlib

/-!
gbf: translator and interpreter of an eight-command tape language

A shallow embedding of `src/main.go` (functions `translate` and `execute`)
and machine-checked statements about it.

Conventions of the embedding
* a Go `[]byte` is a `List Nat` (each element a byte value); the commands are the ASCII codes
  `+`=43 `,`=44 `-`=45 `.`=46 `<`=60 `>`=62 `[`=91 `]`=93, and the internal command `z`=122;
* fixed-width integers are `Nat`/`Int` with the wrap written out: `uint8` counters are taken
  modulo 256, `uint16` modulo 65536, `uint32` modulo 2^32;
* a Go run-time panic (index or slice bounds out of range) is an `Except.error`;
* loops that need not terminate take a step budget (fuel); running out of it is the
  separate fault `Fault.outOfFuel`, never confused with a panic.
-/

namespace Gbf

/-! ## Data model -/

/-- Ways a modelled run can stop without a result. -/
inductive Fault where
  /-- Go run-time panic "index out of range". -/
  | indexOutOfRange
  /-- Go run-time panic "slice bounds out of range". -/
  | sliceOutOfRange
  /-- The step budget of the model ran out (not a behaviour of the program itself). -/
  | outOfFuel
deriving DecidableEq, Repr

deriving instance DecidableEq for Except

/-- The struct `BfOp` of main.go: `Index uint32`, `Command byte`, `RepeatCount uint8`,
`TargetIndex uint32`. -/
structure BfOp where
  Index : Nat
  Command : Nat
  RepeatCount : Nat
  TargetIndex : Nat
deriving DecidableEq, Repr

/-- The constant `COMMANDS = "+-<>[].,"` as bytes. -/
def COMMANDS : List Nat := [43, 45, 60, 62, 91, 93, 46, 44]

/-- The constant `REPEATABLE_COMMANDS = "+-<>."` as bytes. -/
def REPEATABLE_COMMANDS : List Nat := [43, 45, 60, 62, 46]

/-! ## translate -/

/-- The local variables of `translate` that live across iterations of its outer loop:
`ops`, `jumpsStack` (most recently pushed index first) and `opIndex`. -/
structure TState where
  ops : List BfOp
  jumpsStack : List Nat
  opIndex : Nat
deriving DecidableEq, Repr

/-- The inner `for` loop of `translate` (main.go 127-135). `cmd` is `op.Command`, `rc` is
`op.RepeatCount` so far and `rest` is `source[i+1:sourceLength]`. The loop breaks when the
command is not repeatable, when the source is exhausted, or when the next byte differs;
otherwise `op.RepeatCount++` (a `uint8`, so modulo 256) and `i++`. Returns the final repeat
count and the bytes after the run. -/
def consumeRun (cmd : Nat) : Nat → List Nat → Nat × List Nat
  | rc, [] => (rc, [])
  | rc, b :: rest =>
    if cmd ∉ REPEATABLE_COMMANDS ∨ b ≠ cmd then (rc, b :: rest)
    else consumeRun cmd ((rc + 1) % 256) rest

/-- The element `ops[k]` for a Go `int` index `k`; a negative or too large index panics. -/
def opAt (ops : List BfOp) (k : Int) : Except Fault BfOp :=
  if k < 0 then .error .indexOutOfRange
  else match ops[k.toNat]? with
    | none => .error .indexOutOfRange
    | some o => .ok o

/-- The condition of the `if` at main.go 162-164, with the short-circuit evaluation of `&&`:
`ops[totalOps-1].Command == ']' && ops[totalOps-2].Command == '-' &&
ops[totalOps-3].Command == '['`. The repeat count of the `-` operation is not inspected. -/
def zeroIdiom (ops : List BfOp) : Except Fault Bool :=
  let totalOps : Int := ops.length
  match opAt ops (totalOps - 1) with
  | .error e => .error e
  | .ok a =>
    if a.Command ≠ 93 then .ok false
    else match opAt ops (totalOps - 2) with
      | .error e => .error e
      | .ok b =>
        if b.Command ≠ 45 then .ok false
        else match opAt ops (totalOps - 3) with
          | .error e => .error e
          | .ok c => .ok (decide (c.Command = 91))

/-- The part of the outer loop body of `translate` for a loop-close (main.go 145-152): pop
`start` from `jumpsStack` (slicing an empty stack with `[:stackSize-1]` panics), set
`op.TargetIndex = start` and `ops[start].TargetIndex = opIndex`. -/
def linkClose (opIndex : Nat) (op : BfOp) (ops : List BfOp) (jumpsStack : List Nat) :
    Except Fault (BfOp × List BfOp × List Nat) :=
  match jumpsStack with
  | [] => .error .sliceOutOfRange
  | start :: stack =>
    match ops[start]? with
    | none => .error .indexOutOfRange
    | some o =>
      .ok ({ op with TargetIndex := start }, ops.set start { o with TargetIndex := opIndex }, stack)

/-- The tail of the outer loop body (main.go 154-177): append `op`, `opIndex++`, and, when the
last three operations are `[`, `-`, `]`, drop them, take 3 off `opIndex`, append the internal
operation `z` and `opIndex++`. `opIndex` is a `uint32`. -/
def appendAndOptimise (op : BfOp) (ops : List BfOp) (jumpsStack : List Nat) (opIndex : Nat) :
    Except Fault TState :=
  let ops1 := ops ++ [op]
  let opIndex1 := (opIndex + 1) % 2 ^ 32
  match zeroIdiom ops1 with
  | .error e => .error e
  | .ok false => .ok { ops := ops1, jumpsStack := jumpsStack, opIndex := opIndex1 }
  | .ok true =>
    let ops2 := ops1.take (ops1.length - 3)
    let opIndex2 := (opIndex1 + 2 ^ 32 - 3) % 2 ^ 32
    let optimisedOp : BfOp :=
      { Index := opIndex2, Command := 122, RepeatCount := 1, TargetIndex := 0 }
    .ok { ops := ops2 ++ [optimisedOp], jumpsStack := jumpsStack,
          opIndex := (opIndex2 + 1) % 2 ^ 32 }

/-- One iteration of the outer loop of `translate` after the inner loop has run: `cmd` is
`source[i]` (equal to `op.Command`, the inner loop only steps over bytes equal to it) and `rc`
the repeat count the inner loop left in `op.RepeatCount`. -/
def translateStep (cmd rc : Nat) (st : TState) : Except Fault TState :=
  let op : BfOp := { Index := st.opIndex, Command := cmd, RepeatCount := rc, TargetIndex := 0 }
  let jumpsStack := if cmd = 91 then st.opIndex :: st.jumpsStack else st.jumpsStack
  if cmd = 93 then
    match linkClose st.opIndex op st.ops jumpsStack with
    | .error e => .error e
    | .ok (op1, ops1, stack1) => appendAndOptimise op1 ops1 stack1 st.opIndex
  else appendAndOptimise op st.ops jumpsStack st.opIndex

/-- The outer loop of `translate` (main.go 117-182) on the bytes `source[i:sourceLength]` still
to be scanned. Every iteration scans at least one byte, so a budget of `sourceLength`
iterations is never used up. -/
def translateLoop : Nat → List Nat → TState → Except Fault TState
  | _, [], st => .ok st
  | 0, _ :: _, _ => .error .outOfFuel
  | fuel + 1, b :: rest, st =>
    match translateStep b (consumeRun b 1 rest).1 st with
    | .error e => .error e
    | .ok st1 => translateLoop fuel (consumeRun b 1 rest).2 st1

/-- The value of `sourceLength = uint32(len(source))`. -/
def sourceLength (source : List Nat) : Nat := source.length % 2 ^ 32

/-- The bytes `source[0:sourceLength]`, the only ones `translate` looks at. -/
def scanned (source : List Nat) : List Nat := source.take (sourceLength source)

/-- The state of `translate` before the first iteration. -/
def TState.init : TState := { ops := [], jumpsStack := [], opIndex := 0 }

/-- The function `translate` of main.go: the returned `ops`, or the panic that stops it. -/
def translate (source : List Nat) : Except Fault (List BfOp) :=
  match translateLoop (sourceLength source) (scanned source) TState.init with
  | .error e => .error e
  | .ok st => .ok st.ops

/-! ## execute -/

/-- The constant `MAX_MEM` of `execute`. -/
def MAX_MEM : Nat := 3000

/-- The machine `execute` runs: the array `mem` (`[MAX_MEM]uint8`), the instruction pointer
`ip` (`uint16`), the memory pointer `ptr` (`int32`; it stays within `[0, MAX_MEM)`, far from
the `int32` bounds), the bytes standard input still holds and the bytes written to standard
output so far. A machine of the program has `mem.length = MAX_MEM` and cells below 256. -/
structure Machine where
  mem : List Nat
  ip : Nat
  ptr : Int
  input : List Nat
  output : List Nat
deriving DecidableEq, Repr

/-- The machine at the start of `execute`: all cells zero, `ip = 0`, `ptr = 0`. -/
def Machine.init (input : List Nat) : Machine :=
  { mem := List.replicate MAX_MEM 0, ip := 0, ptr := 0, input := input, output := [] }

/-- The read `mem[ptr]` of the array of `MAX_MEM` cells; an index outside it panics. -/
def readCell (mem : List Nat) (ptr : Int) : Except Fault Nat :=
  if ptr < 0 ∨ (MAX_MEM : Int) ≤ ptr then .error .indexOutOfRange
  else .ok (mem.getD ptr.toNat 0)

/-- The write `mem[ptr] = v` into the array of `MAX_MEM` cells; an index outside it panics. -/
def writeCell (mem : List Nat) (ptr : Int) (v : Nat) : Except Fault (List Nat) :=
  if ptr < 0 ∨ (MAX_MEM : Int) ≤ ptr then .error .indexOutOfRange
  else .ok (mem.set ptr.toNat v)

/-- The bytes of the string `%!(NOVERB)` of Go's package `fmt`. -/
def noVerbString : List Nat := [37, 33, 40, 78, 79, 86, 69, 82, 66, 41]

/-- What Go's `fmt.Printf(format)` writes when `format` is `n` copies of the byte `%` (37) and
there are no operands: `%%` is the verb that prints one `%`, and a `%` that ends the format
prints `%!(NOVERB)`. -/
def printfPercents : Nat → List Nat
  | 0 => []
  | 1 => noVerbString
  | n + 2 => 37 :: printfPercents n

/-- What `fmt.Printf(string(bytes.Repeat([]byte{v}, r)))` writes (main.go 84): the argument is
the format string. Bytes other than `%` are copied as they are. -/
def printfRepeat (v r : Nat) : List Nat :=
  if v = 37 then printfPercents r else List.replicate r v

/-- The `switch op.Command` of `execute` (main.go 73-102). Cells are `uint8` (arithmetic modulo
256), `%` on `int32` is Go's truncated remainder, `uint16(op.TargetIndex)` keeps the low 16 bits.
Reading standard input when it is exhausted leaves the fresh buffer byte 0. -/
def dispatch (op : BfOp) (m : Machine) : Except Fault Machine :=
  if op.Command = 43 then
    match readCell m.mem m.ptr with
    | .error e => .error e
    | .ok v =>
      match writeCell m.mem m.ptr ((v + op.RepeatCount) % 256) with
      | .error e => .error e
      | .ok mem1 => .ok { m with mem := mem1 }
  else if op.Command = 45 then
    match readCell m.mem m.ptr with
    | .error e => .error e
    | .ok v =>
      match writeCell m.mem m.ptr ((v + 256 - op.RepeatCount % 256) % 256) with
      | .error e => .error e
      | .ok mem1 => .ok { m with mem := mem1 }
  else if op.Command = 62 then
    .ok { m with ptr := Int.tmod (m.ptr + (op.RepeatCount : Int)) (MAX_MEM : Int) }
  else if op.Command = 60 then
    .ok { m with ptr := Int.tmod (m.ptr - (op.RepeatCount : Int) + (MAX_MEM : Int)) (MAX_MEM : Int) }
  else if op.Command = 46 then
    match readCell m.mem m.ptr with
    | .error e => .error e
    | .ok v => .ok { m with output := m.output ++ printfRepeat v op.RepeatCount }
  else if op.Command = 44 then
    match writeCell m.mem m.ptr (m.input.headD 0) with
    | .error e => .error e
    | .ok mem1 => .ok { m with mem := mem1, input := m.input.tail }
  else if op.Command = 91 then
    match readCell m.mem m.ptr with
    | .error e => .error e
    | .ok v => if v = 0 then .ok { m with ip := op.TargetIndex % 65536 } else .ok m
  else if op.Command = 93 then
    match readCell m.mem m.ptr with
    | .error e => .error e
    | .ok v => if v ≠ 0 then .ok { m with ip := op.TargetIndex % 65536 } else .ok m
  else if op.Command = 122 then
    match writeCell m.mem m.ptr 0 with
    | .error e => .error e
    | .ok mem1 => .ok { m with mem := mem1 }
  else .ok m

/-- One iteration of the loop of `execute`: fetch `ops[ip]`, dispatch, `ip++` (a `uint16`). -/
def execStep (ops : List BfOp) (m : Machine) : Except Fault Machine :=
  match ops[m.ip]? with
  | none => .error .indexOutOfRange
  | some op =>
    match dispatch op m with
    | .error e => .error e
    | .ok m1 => .ok { m1 with ip := (m1.ip + 1) % 65536 }

/-- The loop `for ip < uint16(len(ops))` of `execute` with a budget of `fuel` iterations. The
result is the machine when the loop condition fails. -/
def execLoop : Nat → List BfOp → Machine → Except Fault Machine
  | fuel, ops, m =>
    if m.ip < ops.length % 65536 then
      match fuel with
      | 0 => .error .outOfFuel
      | fuel1 + 1 =>
        match execStep ops m with
        | .error e => .error e
        | .ok m1 => execLoop fuel1 ops m1
    else .ok m

/-- The function `execute` of main.go, run on a fresh machine with a budget of `fuel` loop
iterations. -/
def execute (fuel : Nat) (ops : List BfOp) (input : List Nat) : Except Fault Machine :=
  execLoop fuel ops (Machine.init input)

/-! ## Bracket structure of a source -/

/-- The nesting depth after scanning `s` from depth `d`, counting `[` up and `]` down; `none`
as soon as a `]` arrives at depth 0. -/
def bracketDepth : Nat → List Nat → Option Nat
  | d, [] => some d
  | d, b :: r =>
    if b = 91 then bracketDepth (d + 1) r
    else if b = 93 then (if d = 0 then none else bracketDepth (d - 1) r)
    else bracketDepth d r

/-- The brackets of `s` are balanced: no prefix has more `]` than `[`, and `s` as a whole has
as many of the one as of the other. -/
def Balanced (s : List Nat) : Prop :=
  (∀ k ≤ s.length, (s.take k).count 93 ≤ (s.take k).count 91) ∧ s.count 93 = s.count 91

instance (s : List Nat) : Decidable (Balanced s) := by
  unfold Balanced; infer_instance

/-! ## Invariants and other definitions used in the statements -/

/-- What holds of the variables of `translate` at the start of every iteration: `opIndex` is
the number of operations, and `jumpsStack` holds, most recent first and in decreasing order,
positions of loop-open operations. -/
structure Inv (st : TState) : Prop where
  opIndex_eq : st.opIndex = st.ops.length
  stack_open : ∀ i ∈ st.jumpsStack, ∃ o, st.ops[i]? = some o ∧ o.Command = 91
  stack_sorted : st.jumpsStack.Pairwise (fun a b => b < a)

/-- The three ways an iteration that does not panic changes the state: an operation other than
a loop-close is appended (`plain`); a loop-close is linked with the loop-open on top of the
stack and appended (`close`); or it is linked, appended and the last three operations
`[`, `-`, `]` are replaced by `z` (`clear`). -/
inductive StepShape (cmd rc : Nat) (st st1 : TState) : Prop
  | plain (h : cmd ≠ 93)
      (hops : st1.ops = st.ops ++ [⟨st.ops.length, cmd, rc, 0⟩])
      (hstack : st1.jumpsStack
        = if cmd = 91 then st.ops.length :: st.jumpsStack else st.jumpsStack)
  | close (h : cmd = 93) (s : Nat) (stk : List Nat) (o : BfOp)
      (hs : st.jumpsStack = s :: stk) (ho : st.ops[s]? = some o)
      (hops : st1.ops = st.ops.set s { o with TargetIndex := st.ops.length }
        ++ [⟨st.ops.length, 93, rc, s⟩])
      (hstack : st1.jumpsStack = stk)
      (hno : ∀ pre c b, st.ops.set s { o with TargetIndex := st.ops.length } = pre ++ [c, b] →
        ¬ (c.Command = 91 ∧ b.Command = 45))
  | clear (h : cmd = 93) (s : Nat) (stk : List Nat) (o : BfOp)
      (hs : st.jumpsStack = s :: stk) (ho : st.ops[s]? = some o)
      (pre : List BfOp) (c b : BfOp)
      (hpre : st.ops.set s { o with TargetIndex := st.ops.length } = pre ++ [c, b])
      (hc : c.Command = 91) (hb : b.Command = 45)
      (hops : st1.ops = pre ++ [⟨pre.length, 122, 1, 0⟩])
      (hstack : st1.jumpsStack = stk)

/-- The invariant behind dense indices: every operation carries its own position. -/
def IndexDense (st : TState) : Prop :=
  ∀ (i : Nat) (o : BfOp), st.ops[i]? = some o → o.Index = i

/-- The three operations of the loop `[-]` as `translate` links them before the rewrite. -/
def clearLoop : List BfOp := [⟨0, 91, 1, 2⟩, ⟨1, 45, 1, 0⟩, ⟨2, 93, 1, 0⟩]

/-- The single operation the rewrite puts in place of the loop. -/
def clearOp : List BfOp := [⟨0, 122, 1, 0⟩]

/-- A machine of the program with the pointer at cell 0 and the value 3 in it. -/
def sampleMachine : Machine :=
  { mem := 3 :: List.replicate 2999 0, ip := 0, ptr := 0, input := [], output := [] }

/-- The loop-open at position `i` and the loop-close at position `j` are partners: `i < j` and
the jump target of each is the position of the other. -/
def Linked (ops : List BfOp) (i j : Nat) : Prop :=
  ∃ o c, ops[i]? = some o ∧ ops[j]? = some c ∧ o.Command = 91 ∧ c.Command = 93 ∧
    o.TargetIndex = j ∧ c.TargetIndex = i ∧ i < j

/-- The invariant behind the pairing: a loop-open is pending on the stack or linked with a
later loop-close, a loop-close is linked, a linked loop-open is not pending, pairs do not
cross, and no pending loop-open lies inside a pair. -/
structure Paired (st : TState) : Prop where
  opens : ∀ (i : Nat) (o : BfOp), st.ops[i]? = some o → o.Command = 91 →
    i ∈ st.jumpsStack ∨ Linked st.ops i o.TargetIndex
  closes : ∀ (j : Nat) (c : BfOp), st.ops[j]? = some c → c.Command = 93 →
    Linked st.ops c.TargetIndex j
  linked_not_pending : ∀ i j, Linked st.ops i j → i ∉ st.jumpsStack
  nocross : ∀ i j k l, Linked st.ops i j → Linked st.ops k l → i < k → k < j → l < j
  inner : ∀ i j k, Linked st.ops i j → i < k → k < j → k ∉ st.jumpsStack

/-! ## preprocess and the pipeline of `main` -/

/-- The loop of `preprocess` (main.go 192-196) with `commands` as collected so far: a byte is
appended when `bytes.Contains(commandBytes, []byte{char})`, that is when it is one of the bytes
of `COMMANDS`. -/
def preprocessLoop : List Nat → List Nat → List Nat
  | commands, [] => commands
  | commands, char :: rest =>
    if char ∈ COMMANDS then preprocessLoop (commands ++ [char]) rest
    else preprocessLoop commands rest

/-- The function `preprocess` of main.go. -/
def preprocess (source : List Nat) : List Nat := preprocessLoop [] source

/-- The core of `main` (main.go 47-58) without its diagnostic listing: `preprocess`, then
`translate`, then `execute` with a budget of `fuel` loop iterations; the result is what the
program wrote to standard output. -/
def runSource (fuel : Nat) (source input : List Nat) : Except Fault (List Nat) :=
  match translate (preprocess source) with
  | .error e => .error e
  | .ok ops =>
    match execute fuel ops input with
    | .error e => .error e
    | .ok m => .ok m.output

/-- The bytes of the text `s`. -/
def bytesOf (s : String) : List Nat := s.toList.map Char.toNat

/-- The classic Hello World source. -/
def helloWorldSource : List Nat :=
  bytesOf "++++++++[>++++[>++>+++>+++>+<<<<-]>+>+>->>+[<]<-]>>.>---.+++++++..+++.>>.<-.<.+++.------.--------.>>+.>++."

/-- The invariant behind repeat count 1: an operation whose command is not repeatable has
repeat count 1. -/
def RepeatOne (st : TState) : Prop :=
  ∀ (i : Nat) (o : BfOp), st.ops[i]? = some o → o.Command ∉ REPEATABLE_COMMANDS →
    o.RepeatCount = 1

/-- No three consecutive operations are a loop-open, a decrement and a loop-close. -/
def NoIdiom (ops : List BfOp) : Prop :=
  ∀ (i : Nat) (a b c : BfOp), ops[i]? = some a → ops[i + 1]? = some b → ops[i + 2]? = some c →
    ¬ (a.Command = 91 ∧ b.Command = 45 ∧ c.Command = 93)

/-- The program of `n` input operations, each with its position as index, repeat count 1 and
no jump target. -/
def inputOps (n : Nat) : List BfOp := (List.range n).map (fun i => ⟨i, 44, 1, 0⟩)

/-- The source text of one operation: the clear `z` stands for `[-]`, any other operation for
its command repeated `RepeatCount` times. -/
def unfoldOp (o : BfOp) : List Nat :=
  if o.Command = 122 then [91, 45, 93] else List.replicate o.RepeatCount o.Command

/-- The source text of a program: the texts of its operations in order. -/
def unfoldOps : List BfOp → List Nat
  | [] => []
  | o :: r => unfoldOp o ++ unfoldOps r

/-- Every repeat count is at least 1. -/
def PosCount (ops : List BfOp) : Prop :=
  ∀ (i : Nat) (o : BfOp), ops[i]? = some o → 1 ≤ o.RepeatCount

/-- Every run of one repeatable command in `s` is at most 255 long. -/
def RunsShort (s : List Nat) : Prop :=
  ∀ c ∈ REPEATABLE_COMMANDS, ∀ (pre suf : List Nat) (k : Nat),
    s = pre ++ (List.replicate k c ++ suf) → k ≤ 255

/-- Nowhere in `s` is a `[` followed by two or more `-` and then a `]`. -/
def NoLongIdiom (s : List Nat) : Prop :=
  ∀ (pre suf : List Nat) (k : Nat), s = pre ++ 91 :: (List.replicate k 45 ++ 93 :: suf) → k < 2

/-- The operations of a program applied one after the other, each once, by the `switch` of
`execute` alone (no instruction pointer involved). -/
def applyOps : List BfOp → Machine → Except Fault Machine
  | [], m => .ok m
  | op :: r, m =>
    match dispatch op m with
    | .error e => .error e
    | .ok m1 => applyOps r m1

/-- The machine `m` with the instruction pointer set to `x`. -/
def withIp (x : Nat) (m : Machine) : Machine := { m with ip := x }

/-- The state of `translate` inside a stretch of source that started with the stack `base` and
the operations `ops0`: the stack is `base` with newer entries `new` on top, every newer entry
is a position past `ops0`, and the operations `ops0` are still in place. -/
structure AboveBase (base : List Nat) (ops0 : List BfOp) (new : List Nat) (st : TState) :
    Prop where
  stack : st.jumpsStack = new ++ base
  above : ∀ x ∈ new, ops0.length ≤ x
  agree : ∀ i, i < ops0.length → st.ops[i]? = ops0[i]?
  len : ops0.length ≤ st.ops.length

/-! ## Facts about the inner loop -/

theorem consumeRun_replicate (cmd : Nat) (h : cmd ∈ REPEATABLE_COMMANDS) (n rc : Nat) :
    consumeRun cmd rc (List.replicate n cmd) = ((rc + n) % 256, []) ∨
      (n = 0 ∧ consumeRun cmd rc (List.replicate n cmd) = (rc, [])) := by
  induction n generalizing rc with
  | zero => right; simp [consumeRun]
  | succ n ih =>
    left
    have hstep : consumeRun cmd rc (List.replicate (n + 1) cmd)
        = consumeRun cmd ((rc + 1) % 256) (List.replicate n cmd) := by
      simp [List.replicate_succ, consumeRun, h]
    rw [hstep]
    rcases ih ((rc + 1) % 256) with h1 | ⟨h0, h1⟩
    · rw [h1]; congr 1; omega
    · subst h0; rw [h1]

theorem consumeRun_length (cmd : Nat) (rc : Nat) (rest : List Nat) :
    (consumeRun cmd rc rest).2.length ≤ rest.length := by
  induction rest generalizing rc with
  | nil => simp [consumeRun]
  | cons b r ih =>
    unfold consumeRun
    split
    · simp
    · have := ih ((rc + 1) % 256); simp; omega

/-- The inner loop steps over `k` copies of the command, which happens only for a repeatable
command, and counts them modulo 256. -/
theorem consumeRun_spec (cmd : Nat) (rc : Nat) (rest : List Nat) (hrc : rc < 256) :
    ∃ k, rest = List.replicate k cmd ++ (consumeRun cmd rc rest).2 ∧
      (consumeRun cmd rc rest).1 = (rc + k) % 256 ∧
      (0 < k → cmd ∈ REPEATABLE_COMMANDS) := by
  induction rest generalizing rc with
  | nil => exact ⟨0, by simp [consumeRun], by simp [consumeRun, Nat.mod_eq_of_lt hrc], by simp⟩
  | cons b r ih =>
    unfold consumeRun
    split
    · exact ⟨0, by simp, by simp [Nat.mod_eq_of_lt hrc], by simp⟩
    · rename_i hc
      push_neg at hc
      obtain ⟨k, hk1, hk2, _⟩ := ih ((rc + 1) % 256) (Nat.mod_lt _ (by norm_num))
      refine ⟨k + 1, ?_, ?_, fun _ => hc.1⟩
      · rw [List.replicate_succ, List.cons_append, ← hk1, hc.2]
      · rw [hk2]; omega

theorem consumeRun_not_repeatable (cmd : Nat) (h : cmd ∉ REPEATABLE_COMMANDS) (rc : Nat)
    (rest : List Nat) : consumeRun cmd rc rest = (rc, rest) := by
  cases rest with
  | nil => simp [consumeRun]
  | cons b r => simp [consumeRun, h]

theorem consumeRun_append_open (cmd rc : Nat) (rest t : List Nat) :
    consumeRun cmd rc (rest ++ 91 :: t)
      = ((consumeRun cmd rc rest).1, (consumeRun cmd rc rest).2 ++ 91 :: t) := by
  induction rest generalizing rc with
  | nil =>
    by_cases h : cmd = 91
    · subst h; simp [consumeRun, REPEATABLE_COMMANDS]
    · have : (91 : Nat) ≠ cmd := fun e => h e.symm
      simp [consumeRun, this]
  | cons b r ih =>
    simp only [List.cons_append, consumeRun]
    split
    · rfl
    · exact ih _

/-! ## Facts about one iteration of the outer loop -/

theorem getElem?_append_add {α : Type} (l r : List α) (j : Nat) :
    (l ++ r)[l.length + j]? = r[j]? := by
  rw [List.getElem?_append_right (by omega)]
  congr 1; omega

theorem opAt_of_eq (ops : List BfOp) (k : Int) (i : Nat) (h : k = (i : Int)) :
    opAt ops k = match ops[i]? with
      | none => .error .indexOutOfRange
      | some o => .ok o := by
  subst h
  simp [opAt]

theorem zeroIdiom_of_ne (ops : List BfOp) (op : BfOp) (h : op.Command ≠ 93) :
    zeroIdiom (ops ++ [op]) = .ok false := by
  have h1 : (((ops ++ [op]).length : Nat) : Int) - 1 = ((ops.length : Nat) : Int) := by
    rw [List.length_append, List.length_singleton]; push_cast; ring
  have g1 : (ops ++ [op])[ops.length]? = some op := by
    simp
  simp only [zeroIdiom]
  rw [opAt_of_eq _ _ _ h1, g1]
  simp [h]

theorem zeroIdiom_concat_ne (l : List BfOp) (b op : BfOp) (h : op.Command = 93)
    (hb : b.Command ≠ 45) : zeroIdiom (l ++ [b, op]) = .ok false := by
  have h1 : (((l ++ [b, op]).length : Nat) : Int) - 1 = ((l.length + 1 : Nat) : Int) := by
    rw [List.length_append]; simp only [List.length_cons, List.length_nil]; push_cast; ring
  have h2 : (((l ++ [b, op]).length : Nat) : Int) - 2 = ((l.length + 0 : Nat) : Int) := by
    rw [List.length_append]; simp only [List.length_cons, List.length_nil]; push_cast; ring
  have g1 : (l ++ [b, op])[l.length + 1]? = some op := getElem?_append_add l [b, op] 1
  have g2 : (l ++ [b, op])[l.length + 0]? = some b := getElem?_append_add l [b, op] 0
  simp only [zeroIdiom]
  rw [opAt_of_eq _ _ _ h1, g1]
  simp only [h, ne_eq, not_true_eq_false, if_false]
  rw [opAt_of_eq _ _ _ h2, g2]
  simp [hb]

theorem zeroIdiom_concat2 (l : List BfOp) (c b op : BfOp) (h : op.Command = 93)
    (hb : b.Command = 45) :
    zeroIdiom (l ++ [c, b, op]) = .ok (decide (c.Command = 91)) := by
  have h1 : (((l ++ [c, b, op]).length : Nat) : Int) - 1 = ((l.length + 2 : Nat) : Int) := by
    rw [List.length_append]; simp only [List.length_cons, List.length_nil]; push_cast; ring
  have h2 : (((l ++ [c, b, op]).length : Nat) : Int) - 2 = ((l.length + 1 : Nat) : Int) := by
    rw [List.length_append]; simp only [List.length_cons, List.length_nil]; push_cast; ring
  have h3 : (((l ++ [c, b, op]).length : Nat) : Int) - 3 = ((l.length + 0 : Nat) : Int) := by
    rw [List.length_append]; simp only [List.length_cons, List.length_nil]; push_cast; ring
  have g1 : (l ++ [c, b, op])[l.length + 2]? = some op := getElem?_append_add l [c, b, op] 2
  have g2 : (l ++ [c, b, op])[l.length + 1]? = some b := getElem?_append_add l [c, b, op] 1
  have g3 : (l ++ [c, b, op])[l.length + 0]? = some c := getElem?_append_add l [c, b, op] 0
  simp only [zeroIdiom]
  rw [opAt_of_eq _ _ _ h1, g1]
  simp only [h, ne_eq, not_true_eq_false, if_false]
  rw [opAt_of_eq _ _ _ h2, g2]
  simp only [hb, ne_eq, not_true_eq_false, if_false]
  rw [opAt_of_eq _ _ _ h3, g3]

theorem appendAndOptimise_of_ne (op : BfOp) (ops : List BfOp) (stack : List Nat) (n : Nat)
    (h : op.Command ≠ 93) :
    appendAndOptimise op ops stack n
      = .ok { ops := ops ++ [op], jumpsStack := stack, opIndex := (n + 1) % 2 ^ 32 } := by
  simp [appendAndOptimise, zeroIdiom_of_ne ops op h]

theorem translateStep_of_ne (cmd rc : Nat) (st : TState) (h : cmd ≠ 93) :
    translateStep cmd rc st
      = .ok { ops := st.ops ++ [⟨st.opIndex, cmd, rc, 0⟩],
              jumpsStack := if cmd = 91 then st.opIndex :: st.jumpsStack else st.jumpsStack,
              opIndex := (st.opIndex + 1) % 2 ^ 32 } := by
  simp only [translateStep, h, if_false]
  rw [appendAndOptimise_of_ne _ _ _ _ (by simpa using h)]

theorem translateStep_close_empty (rc : Nat) (st : TState) (h : st.jumpsStack = []) :
    translateStep 93 rc st = .error .sliceOutOfRange := by
  simp [translateStep, linkClose, h]

/-! ## The invariant of the outer loop -/

theorem eq_nil_or_snoc {α : Type} (l : List α) : l = [] ∨ ∃ L b, l = L ++ [b] := by
  rcases List.eq_nil_or_concat l with h | ⟨L, b, h⟩
  · exact Or.inl h
  · exact Or.inr ⟨L, b, by simpa using h⟩

theorem lt_of_getElem?_eq_some {α : Type} {l : List α} {i : Nat} {a : α}
    (h : l[i]? = some a) : i < l.length := by
  obtain ⟨h1, _⟩ := List.getElem?_eq_some_iff.mp h
  exact h1

theorem translateStep_close (rc : Nat) (st : TState) (hinv : Inv st)
    (hlen : st.ops.length + 1 < 2 ^ 32) (s : Nat) (stk : List Nat)
    (hs : st.jumpsStack = s :: stk) :
    ∃ st1, translateStep 93 rc st = .ok st1 ∧ StepShape 93 rc st st1 ∧
      st1.opIndex = st1.ops.length := by
  obtain ⟨o, ho, hoc⟩ := hinv.stack_open s (by simp [hs])
  have hsn : s < st.ops.length := lt_of_getElem?_eq_some ho
  have hidx := hinv.opIndex_eq
  have hstep : translateStep 93 rc st
      = appendAndOptimise ⟨st.ops.length, 93, rc, s⟩
          (st.ops.set s { o with TargetIndex := st.ops.length }) stk st.ops.length := by
    simp [translateStep, linkClose, hs, ho, hidx]
  have hlen1 : (st.ops.set s { o with TargetIndex := st.ops.length }).length = st.ops.length :=
    List.length_set ..
  have hget : (st.ops.set s { o with TargetIndex := st.ops.length })[s]?
      = some { o with TargetIndex := st.ops.length } := by
    simp [hsn]
  generalize hops1 : st.ops.set s { o with TargetIndex := st.ops.length } = ops1 at *
  have plainClose : zeroIdiom (ops1 ++ [⟨st.ops.length, 93, rc, s⟩]) = .ok false →
      (∀ pre c b, ops1 = pre ++ [c, b] → ¬ (c.Command = 91 ∧ b.Command = 45)) →
      ∃ st1, translateStep 93 rc st = .ok st1 ∧ StepShape 93 rc st st1 ∧
        st1.opIndex = st1.ops.length := by
    intro hz hno
    refine ⟨{ ops := ops1 ++ [⟨st.ops.length, 93, rc, s⟩], jumpsStack := stk,
              opIndex := (st.ops.length + 1) % 2 ^ 32 }, ?_, ?_, ?_⟩
    · rw [hstep]; simp [appendAndOptimise, hz]
    · exact StepShape.close rfl s stk o hs ho (by simp [hops1]) rfl (by simpa [hops1] using hno)
    · simp only [List.length_append, List.length_singleton, hlen1]
      exact Nat.mod_eq_of_lt hlen
  rcases eq_nil_or_snoc ops1 with hnil | ⟨l, b, hlb⟩
  · subst hnil; simp at hlen1; omega
  · by_cases hb : b.Command = 45
    · rcases eq_nil_or_snoc l with hnil | ⟨l1, c, hlc⟩
      · subst hnil; subst hlb
        have hs0 : s = 0 := by simp at hlen1; omega
        subst hs0
        simp at hget
        rw [hget] at hb
        simp [hoc] at hb
      · subst hlc; subst hlb
        by_cases hc : c.Command = 91
        · have hz : zeroIdiom (l1 ++ [c, b, ⟨st.ops.length, 93, rc, s⟩]) = .ok true := by
            rw [zeroIdiom_concat2 _ _ _ _ rfl hb]; simp [hc]
          have hn : st.ops.length = l1.length + 2 := by
            simp at hlen1; omega
          refine ⟨{ ops := l1 ++ [⟨l1.length, 122, 1, 0⟩], jumpsStack := stk,
                    opIndex := l1.length + 1 }, ?_, ?_, ?_⟩
          · rw [hstep]
            simp only [appendAndOptimise, List.append_assoc, List.cons_append, List.nil_append,
              hz]
            have e1 : (l1 ++ [c, b, (⟨st.ops.length, 93, rc, s⟩ : BfOp)]).length - 3
                = l1.length := by simp
            have e2 : ((st.ops.length + 1) % 2 ^ 32 + 2 ^ 32 - 3) % 2 ^ 32 = l1.length := by
              omega
            have e3 : (l1.length + 1) % 2 ^ 32 = l1.length + 1 := by omega
            rw [e1, e2, e3, List.take_left]
          · exact StepShape.clear rfl s stk o hs ho l1 c b (by simp [hops1]) hc hb rfl rfl
          · simp
        · apply plainClose
          · have := zeroIdiom_concat2 l1 c b ⟨st.ops.length, 93, rc, s⟩ rfl hb
            simpa [hc] using this
          · intro pre c1 b1 he
            have he1 : l1 ++ [c, b] = pre ++ [c1, b1] := by simpa using he
            have := List.append_inj_right' he1 rfl
            simp at this
            intro hcon
            exact hc (this.1 ▸ hcon.1)
    · apply plainClose
      · subst hlb
        have := zeroIdiom_concat_ne l b ⟨st.ops.length, 93, rc, s⟩ rfl hb
        simpa using this
      · intro pre c1 b1 he
        subst hlb
        have he1 : l ++ [b] = (pre ++ [c1]) ++ [b1] := by simpa using he
        have := List.append_inj_right' he1 rfl
        simp at this
        intro hcon
        exact hb (this ▸ hcon.2)

theorem translateStep_ok (cmd rc : Nat) (st : TState) (hinv : Inv st)
    (hlen : st.ops.length + 1 < 2 ^ 32) (hstack : cmd = 93 → st.jumpsStack ≠ []) :
    ∃ st1, translateStep cmd rc st = .ok st1 ∧ StepShape cmd rc st st1 ∧
      st1.opIndex = st1.ops.length := by
  by_cases h : cmd = 93
  · subst h
    cases hs : st.jumpsStack with
    | nil => exact absurd hs (hstack rfl)
    | cons s stk => exact translateStep_close rc st hinv hlen s stk hs
  · refine ⟨_, translateStep_of_ne cmd rc st h, ?_, ?_⟩
    · exact StepShape.plain h (by simp [hinv.opIndex_eq]) (by simp [hinv.opIndex_eq])
    · simp only [List.length_append, List.length_singleton, hinv.opIndex_eq]
      exact Nat.mod_eq_of_lt hlen

theorem translateStep_shape (cmd rc : Nat) (st st1 : TState) (hinv : Inv st)
    (hlen : st.ops.length + 1 < 2 ^ 32) (h : translateStep cmd rc st = .ok st1) :
    StepShape cmd rc st st1 ∧ st1.opIndex = st1.ops.length := by
  have hstack : cmd = 93 → st.jumpsStack ≠ [] := by
    intro hc hs
    subst hc
    rw [translateStep_close_empty rc st hs] at h
    cases h
  obtain ⟨st2, h2, hshape, hidx⟩ := translateStep_ok cmd rc st hinv hlen hstack
  rw [h2] at h
  cases h
  exact ⟨hshape, hidx⟩

theorem StepShape.length_le {cmd rc : Nat} {st st1 : TState} (h : StepShape cmd rc st st1) :
    st1.ops.length ≤ st.ops.length + 1 := by
  cases h with
  | plain h hops hstack => simp [hops]
  | close h s stk o hs ho hops hstack hno => simp [hops]
  | clear h s stk o hs ho pre c b hpre hc hb hops hstack =>
    have := congrArg List.length hpre
    simp at this
    simp [hops]; omega

theorem StepShape.stack_length {cmd rc : Nat} {st st1 : TState} (h : StepShape cmd rc st st1) :
    st1.jumpsStack.length + (if cmd = 93 then 1 else 0)
      = st.jumpsStack.length + (if cmd = 91 then 1 else 0) := by
  cases h with
  | plain h hops hstack =>
    by_cases h91 : cmd = 91
    · simp [hstack, h91]
    · simp [hstack, h91, h]
  | close h s stk o hs ho hops hstack hno => simp [hstack, hs, h]
  | clear h s stk o hs ho pre c b hpre hc hb hops hstack => simp [hstack, hs, h]

theorem StepShape.inv {cmd rc : Nat} {st st1 : TState} (h : StepShape cmd rc st st1)
    (hinv : Inv st) (hidx : st1.opIndex = st1.ops.length) : Inv st1 := by
  have hlt : ∀ i ∈ st.jumpsStack, i < st.ops.length := fun i hi => by
    obtain ⟨o, ho, _⟩ := hinv.stack_open i hi
    exact lt_of_getElem?_eq_some ho
  cases h with
  | plain h hops hstack =>
    refine ⟨hidx, ?_, ?_⟩
    · intro i hi
      rw [hstack] at hi
      rw [hops]
      by_cases hin : i ∈ st.jumpsStack
      · obtain ⟨o, ho, hoc⟩ := hinv.stack_open i hin
        exact ⟨o, by rw [List.getElem?_append_left (hlt i hin)]; exact ho, hoc⟩
      · have h91 : cmd = 91 := by
          by_contra hne
          simp [hne] at hi
          exact hin hi
        have hi2 : i = st.ops.length := by
          simp [h91] at hi
          rcases hi with hi | hi
          · exact hi
          · exact absurd hi hin
        subst hi2
        exact ⟨⟨st.ops.length, cmd, rc, 0⟩, by simp, h91⟩
    · rw [hstack]
      by_cases h91 : cmd = 91
      · simp only [h91, if_true, List.pairwise_cons]
        exact ⟨hlt, hinv.stack_sorted⟩
      · simp only [h91, if_false]
        exact hinv.stack_sorted
  | close h s stk o hs ho hops hstack hno =>
    have hsorted := hinv.stack_sorted
    rw [hs, List.pairwise_cons] at hsorted
    refine ⟨hidx, ?_, ?_⟩
    · intro i hi
      rw [hstack] at hi
      have his : i < s := hsorted.1 i hi
      obtain ⟨oi, hoi, hoic⟩ := hinv.stack_open i (by simp [hs, hi])
      refine ⟨oi, ?_, hoic⟩
      rw [hops, List.getElem?_append_left (by simpa using lt_of_getElem?_eq_some hoi),
        List.getElem?_set_ne (by omega)]
      exact hoi
    · rw [hstack]; exact hsorted.2
  | clear h s stk o hs ho pre c b hpre hc hb hops hstack =>
    have hsorted := hinv.stack_sorted
    rw [hs, List.pairwise_cons] at hsorted
    obtain ⟨os, hos, hosc⟩ := hinv.stack_open s (by simp [hs])
    have hsn : s < st.ops.length := lt_of_getElem?_eq_some hos
    have hn : st.ops.length = pre.length + 2 := by
      have := congrArg List.length hpre
      simp at this
      omega
    have hspre : s ≤ pre.length := by
      by_contra hgt
      have hs1 : s = pre.length + 1 := by omega
      have e1 : (st.ops.set s { o with TargetIndex := st.ops.length })[s]?
          = some { o with TargetIndex := st.ops.length } := by simp [hsn]
      rw [hpre, hs1, getElem?_append_add pre [c, b] 1] at e1
      simp at e1
      rw [ho] at hos
      cases hos
      rw [e1] at hb
      simp [hosc] at hb
    refine ⟨hidx, ?_, ?_⟩
    · intro i hi
      rw [hstack] at hi
      have his : i < s := hsorted.1 i hi
      obtain ⟨oi, hoi, hoic⟩ := hinv.stack_open i (by simp [hs, hi])
      refine ⟨oi, ?_, hoic⟩
      have e2 : (st.ops.set s { o with TargetIndex := st.ops.length })[i]? = some oi := by
        rw [List.getElem?_set_ne (by omega)]; exact hoi
      rw [hpre, List.getElem?_append_left (by omega)] at e2
      rw [hops, List.getElem?_append_left (by omega)]
      exact e2
    · rw [hstack]; exact hsorted.2

/-! ## The outer loop -/

theorem translateLoop_nil (fuel : Nat) (st : TState) : translateLoop fuel [] st = .ok st := by
  cases fuel <;> rfl

theorem translateLoop_cons (fuel b : Nat) (rest : List Nat) (st : TState) :
    translateLoop (fuel + 1) (b :: rest) st
      = match translateStep b (consumeRun b 1 rest).1 st with
        | .error e => .error e
        | .ok st1 => translateLoop fuel (consumeRun b 1 rest).2 st1 := rfl

/-- A budget of as many iterations as there are bytes is enough: the result does not depend on
the budget from there on. -/
theorem translateLoop_fuel (f1 f2 : Nat) (src : List Nat) (st : TState)
    (h1 : src.length ≤ f1) (h2 : src.length ≤ f2) :
    translateLoop f1 src st = translateLoop f2 src st := by
  induction f1 generalizing f2 src st with
  | zero =>
    have : src = [] := List.length_eq_zero.mp (Nat.le_zero.mp h1)
    subst this
    simp [translateLoop_nil]
  | succ f1 ih =>
    cases src with
    | nil => simp [translateLoop_nil]
    | cons b rest =>
      cases f2 with
      | zero => simp at h2
      | succ f2 =>
        rw [translateLoop_cons, translateLoop_cons]
        cases translateStep b (consumeRun b 1 rest).1 st with
        | error e => rfl
        | ok st1 =>
          have := consumeRun_length b 1 rest
          simp only [List.length_cons] at h1 h2
          exact ih f2 _ st1 (by omega) (by omega)

theorem repeatable_ne (b : Nat) (h : b ∈ REPEATABLE_COMMANDS) : b ≠ 91 ∧ b ≠ 93 := by
  simp [REPEATABLE_COMMANDS] at h
  omega

theorem bracketDepth_replicate (b : Nat) (h91 : b ≠ 91) (h93 : b ≠ 93) (k d : Nat)
    (r : List Nat) : bracketDepth d (List.replicate k b ++ r) = bracketDepth d r := by
  induction k with
  | zero => simp
  | succ k ih => simp [List.replicate_succ, bracketDepth, h91, h93, ih]

/-- The outer loop, started in a state that satisfies the invariant with `d` pending
loop-opens, panics with "slice bounds out of range" exactly when the bracket depth of the
remaining bytes drops below zero, and otherwise ends with as many pending loop-opens as the
final depth. -/
theorem translateLoop_depth (fuel : Nat) (src : List Nat) (st : TState) (hinv : Inv st)
    (hlen : st.ops.length + src.length < 2 ^ 32) (hfuel : src.length ≤ fuel) :
    match bracketDepth st.jumpsStack.length src with
    | none => translateLoop fuel src st = .error .sliceOutOfRange
    | some d => ∃ st1, translateLoop fuel src st = .ok st1 ∧ st1.jumpsStack.length = d := by
  induction fuel generalizing src st with
  | zero =>
    have : src = [] := List.length_eq_zero.mp (Nat.le_zero.mp hfuel)
    subst this
    simp [bracketDepth, translateLoop_nil]
  | succ f ih =>
    cases src with
    | nil => simp [bracketDepth, translateLoop_nil]
    | cons b rest =>
      obtain ⟨k, hk1, _, hk3⟩ := consumeRun_spec b 1 rest (by norm_num)
      have hrl := consumeRun_length b 1 rest
      simp only [List.length_cons] at hlen hfuel
      rw [translateLoop_cons]
      by_cases h93 : b = 93
      · subst h93
        cases hs : st.jumpsStack with
        | nil =>
          simp only [bracketDepth, List.length_nil]
          rw [translateStep_close_empty _ _ hs]
          simp
        | cons s stk =>
          obtain ⟨st1, hst, hshape, hidx⟩ :=
            translateStep_close (consumeRun 93 1 rest).1 st hinv (by omega) s stk hs
          rw [hst]
          have hnr : (consumeRun 93 1 rest).2 = rest := by
            rw [consumeRun_not_repeatable 93 (by decide) 1 rest]
          have hsl := hshape.stack_length
          simp [hs] at hsl
          have hle := hshape.length_le
          have := ih rest st1 (hshape.inv hinv hidx) (by omega) (by omega)
          rw [hsl] at this
          simpa [bracketDepth, hnr] using this
      · obtain ⟨st1, hst, hshape, hidx⟩ :=
          translateStep_ok b (consumeRun b 1 rest).1 st hinv (by omega)
            (fun h => absurd h h93)
        rw [hst]
        have hsl := hshape.stack_length
        have hle := hshape.length_le
        have hd : bracketDepth st.jumpsStack.length (b :: rest)
            = bracketDepth st1.jumpsStack.length (consumeRun b 1 rest).2 := by
          by_cases h91 : b = 91
          · subst h91
            rw [consumeRun_not_repeatable 91 (by decide) 1 rest]
            simp at hsl
            simp [bracketDepth, hsl]
          · simp [h91, h93] at hsl
            have hb : bracketDepth st.jumpsStack.length (b :: rest)
                = bracketDepth st.jumpsStack.length rest := by
              simp [bracketDepth, h91, h93]
            rw [hb, hsl]
            conv_lhs => rw [hk1]
            exact bracketDepth_replicate b h91 h93 k _ _
        rw [hd]
        exact ih _ st1 (hshape.inv hinv hidx) (by omega) (by omega)

/-- Induction along the outer loop: a property of the state that every iteration preserves
holds of the final state. The iteration is given by its shape, the repeat count is below 256
and is 1 for a command that is not repeatable. -/
theorem translateLoop_invariant (P : TState → Prop)
    (hP : ∀ st cmd rc st1, Inv st → st.ops.length + 1 < 2 ^ 32 → P st → rc < 256 →
      (cmd ∉ REPEATABLE_COMMANDS → rc = 1) → StepShape cmd rc st st1 → Inv st1 → P st1)
    (fuel : Nat) (src : List Nat) (st st1 : TState) (hinv : Inv st)
    (hlen : st.ops.length + src.length < 2 ^ 32) (hp : P st)
    (h : translateLoop fuel src st = .ok st1) : Inv st1 ∧ P st1 := by
  induction fuel generalizing src st with
  | zero =>
    cases src with
    | nil => rw [translateLoop_nil] at h; cases h; exact ⟨hinv, hp⟩
    | cons b rest => simp [translateLoop] at h
  | succ f ih =>
    cases src with
    | nil => rw [translateLoop_nil] at h; cases h; exact ⟨hinv, hp⟩
    | cons b rest =>
      rw [translateLoop_cons] at h
      simp only [List.length_cons] at hlen
      obtain ⟨k, _, hk2, _⟩ := consumeRun_spec b 1 rest (by norm_num)
      have hrl := consumeRun_length b 1 rest
      cases hst : translateStep b (consumeRun b 1 rest).1 st with
      | error e => rw [hst] at h; cases h
      | ok st2 =>
        rw [hst] at h
        obtain ⟨hshape, hidx⟩ := translateStep_shape _ _ _ _ hinv (by omega) hst
        have hinv2 := hshape.inv hinv hidx
        have hle := hshape.length_le
        refine ih _ st2 hinv2 (by omega) ?_ h
        refine hP st b _ st2 hinv (by omega) hp ?_ ?_ hshape hinv2
        · rw [hk2]; exact Nat.mod_lt _ (by norm_num)
        · intro hnr
          rw [consumeRun_not_repeatable b hnr 1 rest]

theorem inv_init : Inv TState.init :=
  ⟨rfl, by simp [TState.init], by simp [TState.init]⟩

theorem sourceLength_lt (s : List Nat) : sourceLength s < 2 ^ 32 :=
  Nat.mod_lt _ (by norm_num)

theorem scanned_length (s : List Nat) : (scanned s).length = sourceLength s := by
  unfold scanned sourceLength
  rw [List.length_take]
  exact Nat.min_eq_left (Nat.mod_le _ _)

theorem scanned_of_lt (s : List Nat) (h : s.length < 2 ^ 32) : scanned s = s := by
  unfold scanned sourceLength
  rw [Nat.mod_eq_of_lt h]
  exact List.take_length s

/-! ## Bracket depth and counting -/

theorem bracketDepth_none_of_count (s : List Nat) (d : Nat)
    (h : ∃ k, d + (s.take k).count 91 < (s.take k).count 93) : bracketDepth d s = none := by
  induction s generalizing d with
  | nil => obtain ⟨k, hk⟩ := h; simp at hk
  | cons b r ih =>
    obtain ⟨k, hk⟩ := h
    cases k with
    | zero => simp at hk
    | succ k =>
      rw [List.take_succ_cons, List.count_cons, List.count_cons] at hk
      by_cases h91 : b = 91
      · subst h91
        simp only [bracketDepth, if_true]
        exact ih (d + 1) ⟨k, by simp at hk; omega⟩
      · by_cases h93 : b = 93
        · subst h93
          simp only [bracketDepth, h91, if_false, if_true]
          by_cases hd : d = 0
          · simp [hd]
          · simp only [hd, if_false]
            exact ih (d - 1) ⟨k, by simp at hk; omega⟩
        · simp only [bracketDepth, h91, h93, if_false]
          exact ih d ⟨k, by simp [h91, h93] at hk; omega⟩

theorem bracketDepth_some_of_count (s : List Nat) (d : Nat)
    (h : ∀ k ≤ s.length, (s.take k).count 93 ≤ d + (s.take k).count 91) :
    bracketDepth d s = some (d + s.count 91 - s.count 93) := by
  induction s generalizing d with
  | nil => simp [bracketDepth]
  | cons b r ih =>
    have hk : ∀ k ≤ r.length, ((b :: r).take (k + 1)).count 93
        ≤ d + ((b :: r).take (k + 1)).count 91 := fun k hk => h (k + 1) (by simpa using hk)
    simp only [List.take_succ_cons, List.count_cons] at hk
    rw [List.count_cons, List.count_cons]
    by_cases h91 : b = 91
    · subst h91
      simp only [bracketDepth, if_true]
      rw [ih (d + 1) (fun k hle => by have := hk k hle; simp at this; omega)]
      simp; omega
    · by_cases h93 : b = 93
      · subst h93
        have h0 := hk 0 (Nat.zero_le _)
        simp at h0
        have hd : d ≠ 0 := by omega
        simp only [bracketDepth, h91, if_false, if_true, hd]
        rw [ih (d - 1) (fun k hle => by have := hk k hle; simp at this; omega)]
        simp; omega
      · simp only [bracketDepth, h91, h93, if_false]
        rw [ih d (fun k hle => by have := hk k hle; simp [h91, h93] at this; omega)]
        simp [h91, h93]

theorem take_scanned (s : List Nat) (k : Nat) (hk : k ≤ sourceLength s) :
    (scanned s).take k = s.take k := by
  unfold scanned
  rw [List.take_take, Nat.min_eq_left hk]

/-- The link between `translate` and its outer loop run from the initial state. -/
theorem translate_eq (s : List Nat) :
    translate s = match translateLoop (sourceLength s) (scanned s) TState.init with
      | .error e => .error e
      | .ok st => .ok st.ops := rfl

theorem translateLoop_scanned_bound (s : List Nat) :
    TState.init.ops.length + (scanned s).length < 2 ^ 32 := by
  rw [scanned_length]
  simpa [TState.init] using sourceLength_lt s

/-- A run of `n` copies (`0 < n < 2^32`) of a repeatable command becomes a single operation
whose repeat count is `n` modulo 256. -/
theorem translate_replicate (c n : Nat) (hc : c ∈ REPEATABLE_COMMANDS) (hn : 0 < n)
    (hlt : n < 2 ^ 32) : translate (List.replicate n c) = .ok [⟨0, c, n % 256, 0⟩] := by
  obtain ⟨m, rfl⟩ : ∃ m, n = m + 1 := ⟨n - 1, by omega⟩
  have h93 := (repeatable_ne c hc).2
  have h91 := (repeatable_ne c hc).1
  have hrun : consumeRun c 1 (List.replicate m c) = ((1 + m) % 256, []) := by
    rcases consumeRun_replicate c hc m 1 with h | ⟨h0, h⟩
    · exact h
    · subst h0; rw [h]
  rw [translate_eq, scanned_of_lt _ (by simpa using hlt)]
  have hsl : sourceLength (List.replicate (m + 1) c) = m + 1 := by
    unfold sourceLength
    rw [List.length_replicate]
    exact Nat.mod_eq_of_lt hlt
  rw [hsl, List.replicate_succ, translateLoop_cons, hrun, translateStep_of_ne c _ _ h93]
  simp only [translateLoop_nil, TState.init, h91, if_false, List.nil_append]
  rw [Nat.add_comm 1 m]

theorem getElem?_snoc_cases {α : Type} (l : List α) (a : α) (i : Nat) (x : α)
    (h : (l ++ [a])[i]? = some x) : l[i]? = some x ∨ (i = l.length ∧ x = a) := by
  by_cases hi : i < l.length
  · rw [List.getElem?_append_left hi] at h
    exact Or.inl h
  · have hlt := lt_of_getElem?_eq_some h
    simp only [List.length_append, List.length_singleton] at hlt
    have hi2 : i = l.length := by omega
    subst hi2
    simp at h
    exact Or.inr ⟨rfl, h.symm⟩

theorem getElem?_set_cases {α : Type} (l : List α) (s : Nat) (a : α) (i : Nat) (x : α)
    (h : (l.set s a)[i]? = some x) : (i = s ∧ x = a) ∨ (i ≠ s ∧ l[i]? = some x) := by
  by_cases hi : s = i
  · subst hi
    have hlt := lt_of_getElem?_eq_some h
    simp only [List.length_set] at hlt
    rw [List.getElem?_set_self hlt] at h
    cases h
    exact Or.inl ⟨rfl, rfl⟩
  · rw [List.getElem?_set_ne hi] at h
    exact Or.inr ⟨fun e => hi e.symm, h⟩

theorem getElem?_of_append_left {α : Type} {l r : List α} {i : Nat} {x : α}
    (h : l[i]? = some x) : (l ++ r)[i]? = some x := by
  rw [List.getElem?_append_left (lt_of_getElem?_eq_some h)]
  exact h

theorem indexDense_step (st : TState) (cmd rc : Nat) (st1 : TState) (hd : IndexDense st)
    (hshape : StepShape cmd rc st st1) : IndexDense st1 := by
  intro i x hx
  cases hshape with
  | plain h hops hstack =>
    rw [hops] at hx
    rcases getElem?_snoc_cases _ _ _ _ hx with h1 | ⟨h1, h2⟩
    · exact hd i x h1
    · subst h2; exact h1.symm
  | close h s stk o hs ho hops hstack hno =>
    rw [hops] at hx
    rcases getElem?_snoc_cases _ _ _ _ hx with h1 | ⟨h1, h2⟩
    · rcases getElem?_set_cases _ _ _ _ _ h1 with ⟨h3, h4⟩ | ⟨_, h4⟩
      · subst h4; subst h3; exact hd i o ho
      · exact hd i x h4
    · subst h2; rw [h1]; simp
  | clear h s stk o hs ho pre c b hpre hc hb hops hstack =>
    rw [hops] at hx
    rcases getElem?_snoc_cases _ _ _ _ hx with h1 | ⟨h1, h2⟩
    · have h2 : (pre ++ [c, b])[i]? = some x := getElem?_of_append_left h1
      rw [← hpre] at h2
      rcases getElem?_set_cases _ _ _ _ _ h2 with ⟨h3, h4⟩ | ⟨_, h4⟩
      · subst h4; subst h3; exact hd i o ho
      · exact hd i x h4
    · subst h2; exact h1.symm

/-! ## Statements about `translate` -/

/-- C2 (evaluation of the code where the claim fails): a run of 256 move-right commands is
folded into one operation whose repeat count has wrapped round to 0, not 256. -/
theorem translate_run_of_256_wraps :
    translate (List.replicate 256 62) = .ok [⟨0, 62, 0, 0⟩] :=
  translate_replicate 62 256 (by decide) (by norm_num) (by norm_num)

/-- C3 (counterexample): `translate` does not fail on the single symbol `[`; it returns the
one-operation program whose loop-open keeps jump target 0. -/
theorem translate_single_open_returns : translate [91] = .ok [⟨0, 91, 1, 0⟩] := by
  decide

/-- C3 (amended): `translate` has no end-of-scan check. For every source in which no prefix
has more `]` than `[`, it returns a program, whether or not a loop-open stays unmatched. -/
theorem translate_returns_without_unmatched_close (s : List Nat)
    (h : ∀ k ≤ s.length, (s.take k).count 93 ≤ (s.take k).count 91) :
    ∃ p, translate s = .ok p := by
  have hsl : sourceLength s ≤ s.length := Nat.mod_le _ _
  have hd := bracketDepth_some_of_count (scanned s) 0 (by
    intro k hk
    rw [scanned_length] at hk
    rw [take_scanned s k hk]
    simpa using h k (by omega))
  have := translateLoop_depth (sourceLength s) (scanned s) TState.init inv_init
    (translateLoop_scanned_bound s) (by rw [scanned_length])
  have hst : TState.init.jumpsStack.length = 0 := rfl
  rw [hst, hd] at this
  obtain ⟨st1, h1, _⟩ := this
  exact ⟨st1.ops, by rw [translate_eq, h1]⟩

theorem translate_returns_without_unmatched_close_witness :
    ∃ p, translate [91, 91, 43, 93] = .ok p :=
  translate_returns_without_unmatched_close [91, 91, 43, 93] (by decide)

/-- C4: when some loop-close is met while the back-patch stack is empty, that is when some
prefix of the bytes the scan visits has more `]` than `[`, `translate` panics (slicing the
empty stack) and returns no program. -/
theorem translate_unmatched_close_fails (s : List Nat) (k : Nat) (hk : k ≤ sourceLength s)
    (h : (s.take k).count 91 < (s.take k).count 93) :
    translate s = .error .sliceOutOfRange := by
  have hd := bracketDepth_none_of_count (scanned s) 0
    ⟨k, by rw [take_scanned s k hk]; simpa using h⟩
  have := translateLoop_depth (sourceLength s) (scanned s) TState.init inv_init
    (translateLoop_scanned_bound s) (by rw [scanned_length])
  have hst : TState.init.jumpsStack.length = 0 := rfl
  rw [hst, hd] at this
  rw [translate_eq, this]

theorem translate_unmatched_close_fails_witness :
    translate [93] = .error .sliceOutOfRange :=
  translate_unmatched_close_fails [93] 1 (by decide) (by decide)

/-- C5 (evaluation of the code where the claim fails): `[--]` is rewritten into a single
clear operation `z` although the decrement has repeat count 2. -/
theorem translate_double_decrement_loop_cleared :
    translate [91, 45, 45, 93] = .ok [⟨0, 122, 1, 0⟩] := by
  decide

/-- C7: in every program `translate` returns, the operation at position `i` has sequence
index `i`. -/
theorem translate_index_dense (s : List Nat) (p : List BfOp) (h : translate s = .ok p)
    (i : Nat) (o : BfOp) (ho : p[i]? = some o) : o.Index = i := by
  rw [translate_eq] at h
  cases hl : translateLoop (sourceLength s) (scanned s) TState.init with
  | error e => rw [hl] at h; cases h
  | ok st1 =>
    rw [hl] at h
    cases h
    have := translateLoop_invariant IndexDense
      (fun st cmd rc st1 _ _ hp _ _ hshape _ => indexDense_step st cmd rc st1 hp hshape)
      _ _ _ _ inv_init (translateLoop_scanned_bound s)
      (by intro i o h; simp [TState.init] at h) hl
    exact this.2 i o ho

theorem translate_index_dense_witness :
    translate [43, 43, 91, 45, 93, 91, 62, 93] = .ok [⟨0, 43, 2, 0⟩, ⟨1, 122, 1, 0⟩,
      ⟨2, 91, 1, 4⟩, ⟨3, 62, 1, 0⟩, ⟨4, 93, 1, 2⟩] ∧ (⟨3, 62, 1, 0⟩ : BfOp).Index = 3 :=
  ⟨by decide, translate_index_dense [43, 43, 91, 45, 93, 91, 62, 93]
    [⟨0, 43, 2, 0⟩, ⟨1, 122, 1, 0⟩, ⟨2, 91, 1, 4⟩, ⟨3, 62, 1, 0⟩, ⟨4, 93, 1, 2⟩] (by decide) 3
    ⟨3, 62, 1, 0⟩ (by decide)⟩

/-! ## Facts about `execute` -/

theorem execLoop_halt (fuel : Nat) (ops : List BfOp) (m : Machine)
    (h : ¬ m.ip < ops.length % 65536) : execLoop fuel ops m = .ok m := by
  unfold execLoop
  simp [h]

theorem execLoop_step (fuel : Nat) (ops : List BfOp) (m m1 : Machine)
    (h : m.ip < ops.length % 65536) (hs : execStep ops m = .ok m1) :
    execLoop (fuel + 1) ops m = execLoop fuel ops m1 := by
  rw [execLoop]
  simp [h, hs]

theorem readCell_ok (mem : List Nat) (ptr : Int) (h0 : 0 ≤ ptr) (h1 : ptr < (MAX_MEM : Int)) :
    readCell mem ptr = .ok (mem.getD ptr.toNat 0) := by
  have : ¬ (ptr < 0 ∨ (MAX_MEM : Int) ≤ ptr) := by omega
  simp [readCell, this]

theorem writeCell_ok (mem : List Nat) (ptr : Int) (v : Nat) (h0 : 0 ≤ ptr)
    (h1 : ptr < (MAX_MEM : Int)) : writeCell mem ptr v = .ok (mem.set ptr.toNat v) := by
  have : ¬ (ptr < 0 ∨ (MAX_MEM : Int) ≤ ptr) := by omega
  simp [writeCell, this]

/-- The output operation on a cell that does not hold the byte `%` (37): the value of the cell
is appended `RepeatCount` times, and memory, pointer and input stay as they are. -/
theorem dispatch_output_of_ne_percent (op : BfOp) (m : Machine) (hc : op.Command = 46)
    (h0 : 0 ≤ m.ptr) (h1 : m.ptr < (MAX_MEM : Int)) (hv : m.mem.getD m.ptr.toNat 0 ≠ 37) :
    dispatch op m = .ok { m with
      output := m.output ++ List.replicate op.RepeatCount (m.mem.getD m.ptr.toNat 0) } := by
  have hv1 : ¬ m.mem[m.ptr.toNat]?.getD 0 = 37 := by simpa using hv
  simp [dispatch, hc, readCell_ok _ _ h0 h1, printfRepeat, hv1]

theorem set_zero_of_getD_zero (l : List Nat) (i : Nat) (h : l.getD i 0 = 0) :
    l.set i 0 = l := by
  induction l generalizing i with
  | nil => simp
  | cons a r ih =>
    cases i with
    | zero => simp at h; simp [h]
    | succ i => simp at h; simp [ih i (by simpa using h)]

theorem getD_set_self_of_ne (l : List Nat) (i v w : Nat) (h : l.getD i 0 = w + 1) :
    (l.set i v).getD i 0 = v := by
  induction l generalizing i with
  | nil => simp at h
  | cons a r ih =>
    cases i with
    | zero => simp
    | succ i => simp at h; simpa using ih i (by simpa using h)

/-- From the decrement of the loop `[-]`, with the current cell at `v + 1`, the loop runs
`2 * (v + 1)` more iterations and stops with the cell at 0. -/
theorem clearLoop_from_decrement (v : Nat) (m : Machine) (fuel : Nat) (hip : m.ip = 1)
    (h0 : 0 ≤ m.ptr) (h1 : m.ptr < (MAX_MEM : Int)) (hv : m.mem.getD m.ptr.toNat 0 = v + 1)
    (hb : v + 1 < 256) (hf : 2 * (v + 1) ≤ fuel) :
    execLoop fuel clearLoop m = .ok { m with mem := m.mem.set m.ptr.toNat 0, ip := 3 } := by
  induction v generalizing m fuel with
  | zero =>
    obtain ⟨f, rfl⟩ : ∃ f, fuel = f + 2 := ⟨fuel - 2, by omega⟩
    have hv1 : m.mem[m.ptr.toNat]?.getD 0 = 1 := by simpa using hv
    have hv2 : (m.mem.set m.ptr.toNat 0)[m.ptr.toNat]?.getD 0 = 0 := by
      simpa using getD_set_self_of_ne _ _ 0 0 hv
    have s1 : execStep clearLoop m = .ok { m with mem := m.mem.set m.ptr.toNat 0, ip := 2 } := by
      simp [execStep, clearLoop, hip, dispatch, readCell_ok _ _ h0 h1, writeCell_ok _ _ _ h0 h1,
        hv1]
    have s2 : execStep clearLoop { m with mem := m.mem.set m.ptr.toNat 0, ip := 2 }
        = .ok { m with mem := m.mem.set m.ptr.toNat 0, ip := 3 } := by
      simp [execStep, clearLoop, dispatch, readCell_ok _ _ h0 h1, hv2]
    rw [execLoop_step _ _ _ _ (by simp [clearLoop, hip]) s1,
      execLoop_step _ _ _ _ (by simp [clearLoop]) s2]
    exact execLoop_halt _ _ _ (by simp [clearLoop])
  | succ v ih =>
    obtain ⟨f, rfl⟩ : ∃ f, fuel = f + 2 := ⟨fuel - 2, by omega⟩
    have hv1 : m.mem[m.ptr.toNat]?.getD 0 = v + 1 + 1 := by simpa using hv
    have hv2 : (m.mem.set m.ptr.toNat (v + 1))[m.ptr.toNat]?.getD 0 = v + 1 := by
      simpa using getD_set_self_of_ne _ _ (v + 1) (v + 1) hv
    have s1 : execStep clearLoop m
        = .ok { m with mem := m.mem.set m.ptr.toNat (v + 1), ip := 2 } := by
      have e : (v + 1 + 1 + 255) % 256 = v + 1 := by omega
      simp [execStep, clearLoop, hip, dispatch, readCell_ok _ _ h0 h1, writeCell_ok _ _ _ h0 h1,
        hv1, e]
    have s2 : execStep clearLoop { m with mem := m.mem.set m.ptr.toNat (v + 1), ip := 2 }
        = .ok { m with mem := m.mem.set m.ptr.toNat (v + 1), ip := 1 } := by
      simp [execStep, clearLoop, dispatch, readCell_ok _ _ h0 h1, hv2]
    rw [execLoop_step _ _ _ _ (by simp [clearLoop, hip]) s1,
      execLoop_step _ _ _ _ (by simp [clearLoop]) s2]
    have := ih { m with mem := m.mem.set m.ptr.toNat (v + 1), ip := 1 } f rfl h0 h1
      (getD_set_self_of_ne _ _ (v + 1) (v + 1) hv) (by omega) (by omega)
    rw [this]
    simp [List.set_set]

/-! ## Statements about `execute` -/

/-- C8: from every machine state with the pointer inside the memory and a byte `v` in the
current cell, the un-rewritten loop `[-]` and the single clear operation `z` both halt (any
budget of at least `2 * v + 1` iterations is enough) in the same state but for the instruction
pointer: the current cell is 0, every other cell, the pointer, the input and the output are
unchanged. In particular the program `translate` makes of `+[-]` halts with the current cell
at 0. -/
theorem clear_loop_equals_clear (m : Machine) (fuel : Nat) (hip : m.ip = 0) (h0 : 0 ≤ m.ptr)
    (h1 : m.ptr < (MAX_MEM : Int)) (hb : m.mem.getD m.ptr.toNat 0 < 256)
    (hf : 2 * m.mem.getD m.ptr.toNat 0 + 1 ≤ fuel) :
    execLoop fuel clearLoop m = .ok { m with mem := m.mem.set m.ptr.toNat 0, ip := 3 } ∧
    execLoop fuel clearOp m = .ok { m with mem := m.mem.set m.ptr.toNat 0, ip := 1 } ∧
    translate [43, 91, 45, 93] = .ok [⟨0, 43, 1, 0⟩, ⟨1, 122, 1, 0⟩] ∧
    (execute 2 [⟨0, 43, 1, 0⟩, ⟨1, 122, 1, 0⟩] []).map (fun r => (r.mem.getD 0 1, r.ip))
      = .ok (0, 2) := by
  obtain ⟨f, rfl⟩ : ∃ f, fuel = f + 1 := ⟨fuel - 1, by omega⟩
  refine ⟨?_, ?_, by decide, by decide⟩
  · cases hv : m.mem.getD m.ptr.toNat 0 with
    | zero =>
      have hv1 : m.mem[m.ptr.toNat]?.getD 0 = 0 := by simpa using hv
      have s1 : execStep clearLoop m = .ok { m with ip := 3 } := by
        simp [execStep, clearLoop, hip, dispatch, readCell_ok _ _ h0 h1, hv1]
      rw [execLoop_step _ _ _ _ (by simp [clearLoop, hip]) s1, set_zero_of_getD_zero _ _ hv]
      exact execLoop_halt _ _ _ (by simp [clearLoop])
    | succ v =>
      have hv1 : m.mem[m.ptr.toNat]?.getD 0 = v + 1 := by simpa using hv
      have s1 : execStep clearLoop m = .ok { m with ip := 1 } := by
        simp [execStep, clearLoop, hip, dispatch, readCell_ok _ _ h0 h1, hv1]
      rw [execLoop_step _ _ _ _ (by simp [clearLoop, hip]) s1]
      rw [hv] at hb hf
      exact clearLoop_from_decrement v { m with ip := 1 } f rfl h0 h1 hv hb (by omega)
  · have s1 : execStep clearOp m = .ok { m with mem := m.mem.set m.ptr.toNat 0, ip := 1 } := by
      simp [execStep, clearOp, hip, dispatch, writeCell_ok _ _ _ h0 h1]
    rw [execLoop_step _ _ _ _ (by simp [clearOp, hip]) s1]
    exact execLoop_halt _ _ _ (by simp [clearOp])

theorem clear_loop_equals_clear_witness :
    execLoop 7 clearLoop sampleMachine
      = .ok { sampleMachine with mem := sampleMachine.mem.set sampleMachine.ptr.toNat 0,
                                  ip := 3 } ∧
    execLoop 7 clearOp sampleMachine
      = .ok { sampleMachine with mem := sampleMachine.mem.set sampleMachine.ptr.toNat 0,
                                  ip := 1 } ∧
    translate [43, 91, 45, 93] = .ok [⟨0, 43, 1, 0⟩, ⟨1, 122, 1, 0⟩] ∧
    (execute 2 [⟨0, 43, 1, 0⟩, ⟨1, 122, 1, 0⟩] []).map (fun r => (r.mem.getD 0 1, r.ip))
      = .ok (0, 2) :=
  clear_loop_equals_clear sampleMachine 7 rfl (by decide) (by decide) (by decide) (by decide)

/-- C9 (evaluation of the code where the claim fails): the program for 37 `+` and one `.`
has the value 37 (the byte `%`) in the current cell when it executes the output operation
with repeat count 1; what is written is not that one byte but the ten bytes `%!(NOVERB)`,
because the cell is handed to `fmt.Printf` as the format string. -/
theorem output_of_percent_cell :
    translate (List.replicate 37 43 ++ [46]) = .ok [⟨0, 43, 37, 0⟩, ⟨1, 46, 1, 0⟩] ∧
    (execute 2 [⟨0, 43, 37, 0⟩, ⟨1, 46, 1, 0⟩] []).map (fun r => r.output)
      = .ok [37, 33, 40, 78, 79, 86, 69, 82, 66, 41] := by
  constructor <;> decide

/-- C10 (evaluation of the code where the claim fails): 3000 move-right commands are folded
into one operation with repeat count 3000 mod 256 = 184, and running it from the fresh state
halts with the memory pointer at 184, not 0. -/
theorem run_of_3000_moves_right :
    translate (List.replicate 3000 62) = .ok [⟨0, 62, 184, 0⟩] ∧
    (execute 1 [⟨0, 62, 184, 0⟩] []).map (fun r => (r.ptr, r.ip)) = .ok (184, 1) :=
  ⟨translate_replicate 62 3000 (by decide) (by norm_num) (by norm_num), by decide⟩

/-! ## The pairing of loop-opens and loop-closes -/

theorem Linked.of_agree {ops ops1 : List BfOp} {i j : Nat} (h : Linked ops i j)
    (hi : ops1[i]? = ops[i]?) (hj : ops1[j]? = ops[j]?) : Linked ops1 i j := by
  obtain ⟨o, c, h1, h2, rest⟩ := h
  exact ⟨o, c, by rw [hi]; exact h1, by rw [hj]; exact h2, rest⟩

theorem Linked.lt_length {ops : List BfOp} {i j : Nat} (h : Linked ops i j) :
    i < j ∧ j < ops.length := by
  obtain ⟨o, c, _, h2, _, _, _, _, hij⟩ := h
  exact ⟨hij, lt_of_getElem?_eq_some h2⟩

theorem paired_step_plain (st st1 : TState) (cmd rc : Nat) (hp : Paired st)
    (h : cmd ≠ 93) (hops : st1.ops = st.ops ++ [⟨st.ops.length, cmd, rc, 0⟩])
    (hstack : st1.jumpsStack
      = if cmd = 91 then st.ops.length :: st.jumpsStack else st.jumpsStack) : Paired st1 := by
  have agree : ∀ i, i < st.ops.length → st1.ops[i]? = st.ops[i]? := by
    intro i hi; rw [hops, List.getElem?_append_left hi]
  have sub : ∀ i, i ∈ st.jumpsStack → i ∈ st1.jumpsStack := by
    intro i hi; rw [hstack]; split <;> simp [hi]
  have sup : ∀ i, i ∈ st1.jumpsStack → i = st.ops.length ∨ i ∈ st.jumpsStack := by
    intro i hi; rw [hstack] at hi
    split at hi
    · simpa using hi
    · exact Or.inr hi
  have back : ∀ i j, Linked st1.ops i j → Linked st.ops i j ∧ j < st.ops.length := by
    rintro i j ⟨o, c, h1, h2, ho, hc, ht, ht2, hij⟩
    rw [hops] at h2
    rcases getElem?_snoc_cases _ _ _ _ h2 with h3 | ⟨_, h4⟩
    · have hj := lt_of_getElem?_eq_some h3
      exact ⟨⟨o, c, by rw [← agree i (by omega)]; exact h1, h3, ho, hc, ht, ht2, hij⟩, hj⟩
    · subst h4; exact absurd hc h
  have fwd : ∀ i j, Linked st.ops i j → Linked st1.ops i j := fun i j hl =>
    hl.of_agree (agree i (by have := hl.lt_length; omega)) (agree j hl.lt_length.2)
  refine ⟨?_, ?_, ?_, ?_, ?_⟩
  · intro i o hio hc
    rw [hops] at hio
    rcases getElem?_snoc_cases _ _ _ _ hio with h3 | ⟨h3, h4⟩
    · rcases hp.opens i o h3 hc with h5 | h5
      · exact Or.inl (sub i h5)
      · exact Or.inr (fwd _ _ h5)
    · subst h4
      have h91 : cmd = 91 := hc
      left; rw [hstack, h3]; simp [h91]
  · intro j c hjc hc
    rw [hops] at hjc
    rcases getElem?_snoc_cases _ _ _ _ hjc with h3 | ⟨_, h4⟩
    · exact fwd _ _ (hp.closes j c h3 hc)
    · subst h4; exact absurd hc h
  · intro i j hl hi
    obtain ⟨hl0, hj⟩ := back i j hl
    rcases sup i hi with h5 | h5
    · have := hl0.lt_length; omega
    · exact hp.linked_not_pending i j hl0 h5
  · intro i j k l h1 h2 hik hkj
    exact hp.nocross i j k l (back _ _ h1).1 (back _ _ h2).1 hik hkj
  · intro i j k hl hik hkj hk
    obtain ⟨hl0, hj⟩ := back i j hl
    rcases sup k hk with h5 | h5
    · omega
    · exact hp.inner i j k hl0 hik hkj h5

theorem paired_step_close (st st1 : TState) (rc s : Nat) (stk : List Nat) (o : BfOp)
    (hinv : Inv st) (hp : Paired st) (hs : st.jumpsStack = s :: stk)
    (ho : st.ops[s]? = some o)
    (hops : st1.ops = st.ops.set s { o with TargetIndex := st.ops.length }
      ++ [⟨st.ops.length, 93, rc, s⟩])
    (hstack : st1.jumpsStack = stk) : Paired st1 := by
  have hsin : s ∈ st.jumpsStack := by simp [hs]
  obtain ⟨o1, ho1, hoc⟩ := hinv.stack_open s hsin
  rw [ho] at ho1; cases ho1
  have hsn : s < st.ops.length := lt_of_getElem?_eq_some ho
  have hsorted := hinv.stack_sorted
  rw [hs, List.pairwise_cons] at hsorted
  have hlen1 : (st.ops.set s { o with TargetIndex := st.ops.length }).length = st.ops.length :=
    List.length_set ..
  have get_s : st1.ops[s]? = some { o with TargetIndex := st.ops.length } := by
    rw [hops, List.getElem?_append_left (by omega), List.getElem?_set_self hsn]
  have get_n : st1.ops[st.ops.length]? = some ⟨st.ops.length, 93, rc, s⟩ := by
    rw [hops]
    simp
  have agree : ∀ i, i < st.ops.length → i ≠ s → st1.ops[i]? = st.ops[i]? := by
    intro i hi his
    rw [hops, List.getElem?_append_left (by omega), List.getElem?_set_ne (fun e => his e.symm)]
  have newLink : Linked st1.ops s st.ops.length :=
    ⟨_, _, get_s, get_n, hoc, rfl, rfl, rfl, hsn⟩
  have back : ∀ i j, Linked st1.ops i j →
      (i = s ∧ j = st.ops.length) ∨ (Linked st.ops i j ∧ i ≠ s) := by
    rintro i j ⟨x, c, h1, h2, hx, hc, ht, ht2, hij⟩
    rw [hops] at h2
    rcases getElem?_snoc_cases _ _ _ _ h2 with h3 | ⟨h3, h4⟩
    · rcases getElem?_set_cases _ _ _ _ _ h3 with ⟨_, h5⟩ | ⟨h5, h6⟩
      · subst h5; simp [hoc] at hc
      · have hj := lt_of_getElem?_eq_some h6
        rw [hops, List.getElem?_append_left (by omega)] at h1
        rcases getElem?_set_cases _ _ _ _ _ h1 with ⟨_, h7⟩ | ⟨h7, h8⟩
        · subst h7; simp at ht; omega
        · exact Or.inr ⟨⟨x, c, h8, h6, hx, hc, ht, ht2, hij⟩, h7⟩
    · subst h4
      rw [hlen1] at h3
      exact Or.inl ⟨ht2.symm, h3⟩
  have fwd : ∀ i j, Linked st.ops i j → i ≠ s → Linked st1.ops i j := by
    intro i j hl his
    have hjs : j ≠ s := by
      obtain ⟨x, c, _, h2, _, hc, _⟩ := hl
      intro e; subst e
      rw [ho] at h2; cases h2
      rw [hoc] at hc; cases hc
    exact hl.of_agree (agree i (by have := hl.lt_length; omega) his)
      (agree j hl.lt_length.2 hjs)
  have hsnot : s ∉ stk := fun hin => by have := hsorted.1 s hin; omega
  refine ⟨?_, ?_, ?_, ?_, ?_⟩
  · intro i x hix hc
    rw [hops] at hix
    rcases getElem?_snoc_cases _ _ _ _ hix with h3 | ⟨_, h4⟩
    · rcases getElem?_set_cases _ _ _ _ _ h3 with ⟨h5, h6⟩ | ⟨h5, h6⟩
      · subst h6; subst h5
        exact Or.inr newLink
      · rcases hp.opens i x h6 hc with h7 | h7
        · rw [hs] at h7
          simp [h5] at h7
          exact Or.inl (by rw [hstack]; exact h7)
        · exact Or.inr (fwd _ _ h7 h5)
    · subst h4; cases hc
  · intro j c hjc hc
    rw [hops] at hjc
    rcases getElem?_snoc_cases _ _ _ _ hjc with h3 | ⟨h3, h4⟩
    · rcases getElem?_set_cases _ _ _ _ _ h3 with ⟨_, h6⟩ | ⟨h5, h6⟩
      · subst h6; simp [hoc] at hc
      · have hl := hp.closes j c h6 hc
        exact fwd _ _ hl (fun e => hp.linked_not_pending _ _ hl (e ▸ hsin))
    · subst h4
      rw [hlen1] at h3
      subst h3
      exact newLink
  · intro i j hl hi
    rw [hstack] at hi
    rcases back i j hl with ⟨h1, _⟩ | ⟨h1, _⟩
    · subst h1; exact hsnot hi
    · exact hp.linked_not_pending i j h1 (by rw [hs]; simp [hi])
  · intro i j k l h1 h2 hik hkj
    rcases back i j h1 with ⟨e1, e2⟩ | ⟨a1, _⟩
    · rcases back k l h2 with ⟨e3, _⟩ | ⟨a2, _⟩
      · omega
      · have := a2.lt_length; omega
    · rcases back k l h2 with ⟨e3, _⟩ | ⟨a2, _⟩
      · subst e3
        exact absurd hsin (hp.inner i j k a1 hik hkj)
      · exact hp.nocross i j k l a1 a2 hik hkj
  · intro i j k hl hik hkj hk
    rw [hstack] at hk
    rcases back i j hl with ⟨e1, _⟩ | ⟨a1, _⟩
    · have := hsorted.1 k hk; omega
    · exact hp.inner i j k a1 hik hkj (by rw [hs]; simp [hk])

theorem paired_step_clear (st st1 : TState) (s : Nat) (stk : List Nat) (o : BfOp)
    (hinv : Inv st) (hp : Paired st) (hs : st.jumpsStack = s :: stk)
    (ho : st.ops[s]? = some o) (pre : List BfOp) (c b : BfOp)
    (hpre : st.ops.set s { o with TargetIndex := st.ops.length } = pre ++ [c, b])
    (hc : c.Command = 91) (hb : b.Command = 45)
    (hops : st1.ops = pre ++ [⟨pre.length, 122, 1, 0⟩])
    (hstack : st1.jumpsStack = stk) : Paired st1 := by
  have hsin : s ∈ st.jumpsStack := by simp [hs]
  obtain ⟨o1, ho1, hoc⟩ := hinv.stack_open s hsin
  rw [ho] at ho1; cases ho1
  have hsn : s < st.ops.length := lt_of_getElem?_eq_some ho
  have hsorted := hinv.stack_sorted
  rw [hs, List.pairwise_cons] at hsorted
  have hn : st.ops.length = pre.length + 2 := by
    have := congrArg List.length hpre
    simp at this
    omega
  have get_s : (st.ops.set s { o with TargetIndex := st.ops.length })[s]?
      = some { o with TargetIndex := st.ops.length } := by simp [hsn]
  have get_c : (pre ++ [c, b])[pre.length + 0]? = some c := getElem?_append_add pre [c, b] 0
  have get_b : (pre ++ [c, b])[pre.length + 1]? = some b := getElem?_append_add pre [c, b] 1
  -- the loop-open that was popped is the one of the idiom
  have hb0 : st.ops[pre.length + 1]? = some b ∨ s = pre.length + 1 := by
    by_cases e : s = pre.length + 1
    · exact Or.inr e
    · left
      rw [← List.getElem?_set_ne e, hpre]; exact get_b
  have hs1 : s ≠ pre.length + 1 := by
    intro e
    rw [hpre, e, get_b] at get_s
    cases get_s
    rw [hoc] at hb; cases hb
  have hbold : st.ops[pre.length + 1]? = some b := hb0.resolve_right hs1
  have hspre : s = pre.length := by
    by_contra hne
    have hlt : s < pre.length := by omega
    have hcold : st.ops[pre.length]? = some c := by
      rw [← List.getElem?_set_ne hne, hpre]; exact get_c
    rcases hp.opens pre.length c hcold hc with h1 | h1
    · rw [hs] at h1
      simp at h1
      rcases h1 with h1 | h1
      · omega
      · have := hsorted.1 _ h1; omega
    · obtain ⟨x, y, _, h3, _, hy, _, _, hij⟩ := h1
      have hj := lt_of_getElem?_eq_some h3
      have : c.TargetIndex = pre.length + 1 := by omega
      rw [this, hbold] at h3
      cases h3
      rw [hb] at hy; cases hy
  have agree : ∀ i, i < s → st1.ops[i]? = st.ops[i]? := by
    intro i hi
    have e1 : st1.ops[i]? = pre[i]? := by rw [hops, List.getElem?_append_left (by omega)]
    have e2 : (pre ++ [c, b])[i]? = pre[i]? := List.getElem?_append_left (by omega)
    have e3 : (st.ops.set s { o with TargetIndex := st.ops.length })[i]? = st.ops[i]? :=
      List.getElem?_set_ne (by omega)
    rw [e1, ← e2, ← hpre, e3]
  have back : ∀ i j, Linked st1.ops i j → Linked st.ops i j ∧ j < s := by
    rintro i j ⟨x, y, h1, h2, hx, hy, ht, ht2, hij⟩
    rw [hops] at h2
    rcases getElem?_snoc_cases _ _ _ _ h2 with h3 | ⟨_, h4⟩
    · have hj : j < s := by rw [hspre]; exact lt_of_getElem?_eq_some h3
      refine ⟨⟨x, y, ?_, ?_, hx, hy, ht, ht2, hij⟩, hj⟩
      · rw [← agree i (by omega)]; exact h1
      · rw [← agree j hj, hops]; exact getElem?_of_append_left h3
    · subst h4; cases hy
  have fwd : ∀ i j, Linked st.ops i j → j < s → Linked st1.ops i j := fun i j hl hj =>
    hl.of_agree (agree i (by have := hl.lt_length; omega)) (agree j hj)
  have old : ∀ i x, st1.ops[i]? = some x → x.Command ≠ 122 → i < s ∧ st.ops[i]? = some x := by
    intro i x hix hx
    rw [hops] at hix
    rcases getElem?_snoc_cases _ _ _ _ hix with h3 | ⟨_, h4⟩
    · have hi : i < s := by rw [hspre]; exact lt_of_getElem?_eq_some h3
      refine ⟨hi, ?_⟩
      rw [← agree i hi, hops]; exact getElem?_of_append_left h3
    · subst h4; exact absurd rfl hx
  refine ⟨?_, ?_, ?_, ?_, ?_⟩
  · intro i x hix hx
    obtain ⟨hi, hio⟩ := old i x hix (by rw [hx]; decide)
    rcases hp.opens i x hio hx with h1 | h1
    · rw [hs] at h1
      simp at h1
      rcases h1 with h1 | h1
      · omega
      · exact Or.inl (by rw [hstack]; exact h1)
    · right
      refine fwd _ _ h1 ?_
      obtain ⟨_, y, _, h3, _, hy, _, _, _⟩ := h1
      have hj := lt_of_getElem?_eq_some h3
      by_contra hge
      have hcase : x.TargetIndex = s ∨ x.TargetIndex = pre.length + 1 := by omega
      rcases hcase with e | e
      · rw [e, ho] at h3; cases h3
        rw [hoc] at hy; cases hy
      · rw [e, hbold] at h3; cases h3
        rw [hb] at hy; cases hy
  · intro j y hjy hy
    obtain ⟨hj, hjo⟩ := old j y hjy (by rw [hy]; decide)
    exact fwd _ _ (hp.closes j y hjo hy) hj
  · intro i j hl hi
    rw [hstack] at hi
    exact hp.linked_not_pending i j (back i j hl).1 (by rw [hs]; simp [hi])
  · intro i j k l h1 h2 hik hkj
    exact hp.nocross i j k l (back _ _ h1).1 (back _ _ h2).1 hik hkj
  · intro i j k hl hik hkj hk
    rw [hstack] at hk
    exact hp.inner i j k (back i j hl).1 hik hkj (by rw [hs]; simp [hk])

theorem paired_step (st : TState) (cmd rc : Nat) (st1 : TState) (hinv : Inv st)
    (hp : Paired st) (hshape : StepShape cmd rc st st1) : Paired st1 := by
  cases hshape with
  | plain h hops hstack => exact paired_step_plain st st1 cmd rc hp h hops hstack
  | close h s stk o hs ho hops hstack hno =>
    exact paired_step_close st st1 rc s stk o hinv hp hs ho hops hstack
  | clear h s stk o hs ho pre c b hpre hc hb hops hstack =>
    exact paired_step_clear st st1 s stk o hinv hp hs ho pre c b hpre hc hb hops hstack

theorem paired_init : Paired TState.init := by
  have hno : ∀ i j, ¬ Linked TState.init.ops i j := by
    rintro i j ⟨o, c, h1, _⟩
    simp [TState.init] at h1
  refine ⟨?_, ?_, ?_, ?_, ?_⟩
  · intro i o h; simp [TState.init] at h
  · intro i o h; simp [TState.init] at h
  · intro i j h; exact absurd h (hno i j)
  · intro i j k l h; exact absurd h (hno i j)
  · intro i j k h; exact absurd h (hno i j)

/-! ## More facts about the outer loop -/

theorem translateLoop_length (fuel : Nat) (src : List Nat) (st st1 : TState) (hinv : Inv st)
    (hlen : st.ops.length + src.length < 2 ^ 32) (h : translateLoop fuel src st = .ok st1) :
    st1.ops.length ≤ st.ops.length + src.length := by
  induction fuel generalizing src st with
  | zero =>
    cases src with
    | nil => rw [translateLoop_nil] at h; cases h; simp
    | cons b rest => simp [translateLoop] at h
  | succ f ih =>
    cases src with
    | nil => rw [translateLoop_nil] at h; cases h; simp
    | cons b rest =>
      rw [translateLoop_cons] at h
      simp only [List.length_cons] at hlen ⊢
      have hrl := consumeRun_length b 1 rest
      cases hst : translateStep b (consumeRun b 1 rest).1 st with
      | error e => rw [hst] at h; cases h
      | ok st2 =>
        rw [hst] at h
        obtain ⟨hshape, hidx⟩ := translateStep_shape _ _ _ _ hinv (by omega) hst
        have hle := hshape.length_le
        have := ih _ st2 (hshape.inv hinv hidx) (by omega) h
        omega

/-- Scanning `src ++ [ ...` is scanning `src` and then going on from the loop-open: a run
never extends over a loop-open. -/
theorem translateLoop_append_open (fuel : Nat) (src t : List Nat) (st : TState)
    (hf : (src ++ 91 :: t).length ≤ fuel) :
    translateLoop fuel (src ++ 91 :: t) st
      = match translateLoop fuel src st with
        | .error e => .error e
        | .ok st1 => translateLoop fuel (91 :: t) st1 := by
  induction fuel generalizing src st with
  | zero => simp at hf
  | succ f ih =>
    cases src with
    | nil => simp [translateLoop_nil]
    | cons b rest =>
      rw [List.cons_append, translateLoop_cons, translateLoop_cons, consumeRun_append_open]
      simp only [List.cons_append, List.length_cons, List.length_append] at hf
      have hrl := consumeRun_length b 1 rest
      cases translateStep b (consumeRun b 1 rest).1 st with
      | error e => rfl
      | ok st2 =>
        simp only
        rw [ih _ st2 (by simp only [List.length_append, List.length_cons]; omega)]
        cases translateLoop f (consumeRun b 1 rest).2 st2 with
        | error e => rfl
        | ok st3 =>
          simp only
          exact translateLoop_fuel _ _ _ _ (by simp only [List.length_cons]; omega)
            (by simp only [List.length_cons]; omega)

/-- The iteration for the `]` of `[-]`, also when the decrement before it has been folded from
several `-`: the three operations are replaced by one `z` at the position of the loop-open. -/
theorem translateStep_close_idiom (A : List BfOp) (stk : List Nat) (rcb : Nat)
    (hlen : A.length + 3 < 2 ^ 32) :
    translateStep 93 1 { ops := A ++ [⟨A.length, 91, 1, 0⟩, ⟨A.length + 1, 45, rcb, 0⟩],
                         jumpsStack := A.length :: stk, opIndex := A.length + 2 }
      = .ok { ops := A ++ [⟨A.length, 122, 1, 0⟩], jumpsStack := stk,
              opIndex := A.length + 1 } := by
  have g : (A ++ [(⟨A.length, 91, 1, 0⟩ : BfOp), ⟨A.length + 1, 45, rcb, 0⟩])[A.length]?
      = some ⟨A.length, 91, 1, 0⟩ :=
    getElem?_append_add A [(⟨A.length, 91, 1, 0⟩ : BfOp), ⟨A.length + 1, 45, rcb, 0⟩] 0
  have hset : (A ++ [(⟨A.length, 91, 1, 0⟩ : BfOp), ⟨A.length + 1, 45, rcb, 0⟩]).set A.length
        ⟨A.length, 91, 1, A.length + 2⟩
      = A ++ [⟨A.length, 91, 1, A.length + 2⟩, ⟨A.length + 1, 45, rcb, 0⟩] := by
    rw [List.set_append_right _ _ (Nat.le_refl _)]
    simp
  have hz : zeroIdiom (A ++ [(⟨A.length, 91, 1, A.length + 2⟩ : BfOp),
      ⟨A.length + 1, 45, rcb, 0⟩, ⟨A.length + 2, 93, 1, A.length⟩]) = .ok true :=
    zeroIdiom_concat2 A ⟨A.length, 91, 1, A.length + 2⟩
      ⟨A.length + 1, 45, rcb, 0⟩ ⟨A.length + 2, 93, 1, A.length⟩ rfl rfl
  have hlen3 : (A ++ [(⟨A.length, 91, 1, A.length + 2⟩ : BfOp),
      ⟨A.length + 1, 45, rcb, 0⟩, ⟨A.length + 2, 93, 1, A.length⟩]).length - 3 = A.length := by
    simp
  have e3 : (A.length + 2 + 1) % 2 ^ 32 = A.length + 3 := Nat.mod_eq_of_lt (by omega)
  have e4 : (A.length + 3 + 2 ^ 32 - 3) % 2 ^ 32 = A.length := by omega
  have e1 : (A.length + 1) % 2 ^ 32 = A.length + 1 := Nat.mod_eq_of_lt (by omega)
  have hlink : linkClose (A.length + 2) ⟨A.length + 2, 93, 1, 0⟩
      (A ++ [(⟨A.length, 91, 1, 0⟩ : BfOp), ⟨A.length + 1, 45, rcb, 0⟩]) (A.length :: stk)
      = .ok (⟨A.length + 2, 93, 1, A.length⟩,
          A ++ [⟨A.length, 91, 1, A.length + 2⟩, ⟨A.length + 1, 45, rcb, 0⟩], stk) := by
    simp only [linkClose, g, hset]
  have happ : appendAndOptimise ⟨A.length + 2, 93, 1, A.length⟩
      (A ++ [⟨A.length, 91, 1, A.length + 2⟩, ⟨A.length + 1, 45, rcb, 0⟩]) stk (A.length + 2)
      = .ok { ops := A ++ [⟨A.length, 122, 1, 0⟩], jumpsStack := stk,
              opIndex := A.length + 1 } := by
    simp only [appendAndOptimise, List.append_assoc, List.cons_append, List.nil_append, hz,
      hlen3, List.take_left, e3, e4, e1]
  simp only [translateStep, if_true, show ((93 : Nat) = 91) = False from by decide, if_false,
    hlink, happ]

/-- The three iterations for `[-]`: the loop-open is pushed, linked again and the three
operations are replaced by one `z` at the position the loop-open had. -/
theorem translateLoop_clear_idiom (fuel : Nat) (st : TState)
    (hidx : st.opIndex = st.ops.length) (hlen : st.ops.length + 3 < 2 ^ 32) :
    translateLoop (fuel + 3) [91, 45, 93] st
      = .ok { ops := st.ops ++ [⟨st.ops.length, 122, 1, 0⟩], jumpsStack := st.jumpsStack,
              opIndex := st.ops.length + 1 } := by
  have e1 : (st.ops.length + 1) % 2 ^ 32 = st.ops.length + 1 := Nat.mod_eq_of_lt (by omega)
  have e2 : (st.ops.length + 1 + 1) % 2 ^ 32 = st.ops.length + 2 := Nat.mod_eq_of_lt (by omega)
  have r1 : consumeRun 91 1 [45, 93] = (1, [45, 93]) := by decide
  have r2 : consumeRun 45 1 [93] = (1, [93]) := by decide
  have r3 : consumeRun 93 1 [] = (1, []) := by decide
  rw [translateLoop_cons, r1, translateStep_of_ne 91 1 st (by decide)]
  simp only [if_true]
  rw [translateLoop_cons, r2, translateStep_of_ne 45 1 _ (by decide)]
  simp only [show ((45 : Nat) = 91) = False from by decide, if_false, hidx, e1, e2,
    List.append_assoc, List.cons_append, List.nil_append]
  rw [translateLoop_cons, r3]
  simp only [translateStep_close_idiom st.ops st.jumpsStack 1 hlen, translateLoop_nil]

theorem balanced_wrap (n : Nat) : Balanced (91 :: (List.replicate n 43 ++ [93])) := by
  constructor
  · intro k _
    cases k with
    | zero => simp
    | succ k =>
      rw [List.take_succ_cons, List.count_cons, List.count_cons]
      have h1 : (List.take k (List.replicate n 43 ++ [93])).count 93
          ≤ (List.replicate n 43 ++ [93]).count 93 := (List.take_sublist _ _).count_le _
      have h2 : (List.replicate n 43 ++ [93]).count 93 = 1 := by
        simp [List.count_append, List.count_replicate]
      simp
      omega
  · simp [List.count_cons, List.count_append, List.count_replicate]

/-! ## Statements about the structure of the translated program -/

theorem translate_wrapped_open (n : Nat) (hn : (n + 1 + 1) % 2 ^ 32 = 1) :
    translate (91 :: (List.replicate n 43 ++ [93])) = .ok [⟨0, 91, 1, 0⟩] := by
  have hl : sourceLength (91 :: (List.replicate n 43 ++ [93])) = 1 := by
    unfold sourceLength
    rw [List.length_cons, List.length_append, List.length_replicate, List.length_singleton]
    exact hn
  have hsc : scanned (91 :: (List.replicate n 43 ++ [93])) = [91] := by
    unfold scanned
    rw [hl, show (1 : Nat) = 0 + 1 from rfl, List.take_succ_cons, List.take_zero]
  rw [translate_eq, hl, hsc]
  rfl

theorem translate_wrapped_empty (n : Nat) (hn : (n + 3) % 2 ^ 32 = 0) :
    translate (List.replicate n 43 ++ [91, 45, 93]) = .ok [] := by
  have hl : sourceLength (List.replicate n 43 ++ [91, 45, 93]) = 0 := by
    unfold sourceLength
    rw [List.length_append, List.length_replicate]
    exact hn
  have hsc : scanned (List.replicate n 43 ++ [91, 45, 93]) = [] := by
    unfold scanned
    rw [hl, List.take_zero]
  rw [translate_eq, hl, hsc]
  rfl

/-- C1 (counterexample): a balanced source of 2^32 + 1 bytes, `[`, then 2^32 - 1 times `+`,
then `]`. `sourceLength` is `uint32(len(source))` = 1, so only the `[` is scanned and the
program returned is a lone loop-open with jump target 0: no later loop-close is its partner. -/
theorem translate_balanced_longer_than_uint32 :
    Balanced (91 :: (List.replicate 4294967295 43 ++ [93])) ∧
    translate (91 :: (List.replicate 4294967295 43 ++ [93])) = .ok [⟨0, 91, 1, 0⟩] :=
  ⟨balanced_wrap 4294967295, translate_wrapped_open 4294967295 (by norm_num)⟩

/-- C1 (amended): for every source shorter than 2^32 bytes whose brackets are balanced,
`translate` returns a program in which every loop-open is linked with a later loop-close
(each holds the position of the other as jump target), every loop-close is the partner of
exactly one loop-open, and no two pairs cross. -/
theorem translate_balanced_well_paired (s : List Nat) (hlen : s.length < 2 ^ 32)
    (hb : Balanced s) :
    ∃ p, translate s = .ok p ∧
      (∀ (i : Nat) (o : BfOp), p[i]? = some o → o.Command = 91 → Linked p i o.TargetIndex) ∧
      (∀ (j : Nat) (c : BfOp), p[j]? = some c → c.Command = 93 → ∃! i, Linked p i j) ∧
      (∀ i j k l, Linked p i j → Linked p k l → i < k → k < j → l < j) := by
  have hd : bracketDepth 0 s = some 0 := by
    rw [bracketDepth_some_of_count s 0 (by intro k hk; simpa using hb.1 k hk), hb.2]
    simp
  have hsl : sourceLength s = s.length := Nat.mod_eq_of_lt hlen
  have hbound : TState.init.ops.length + s.length < 2 ^ 32 := by simpa [TState.init] using hlen
  have hloop := translateLoop_depth s.length s TState.init inv_init hbound (Nat.le_refl _)
  have hst : TState.init.jumpsStack.length = 0 := rfl
  rw [hst, hd] at hloop
  obtain ⟨st1, h1, hstk⟩ := hloop
  have hnil : st1.jumpsStack = [] := List.length_eq_zero.mp hstk
  have hp := (translateLoop_invariant Paired
    (fun st cmd rc st1 hinv _ hp _ _ hshape _ => paired_step st cmd rc st1 hinv hp hshape)
    _ _ _ _ inv_init hbound paired_init h1).2
  refine ⟨st1.ops, by rw [translate_eq, scanned_of_lt s hlen, hsl, h1], ?_, ?_, hp.nocross⟩
  · intro i o hio hc
    rcases hp.opens i o hio hc with h | h
    · rw [hnil] at h; simp at h
    · exact h
  · intro j c hjc hc
    refine ⟨c.TargetIndex, hp.closes j c hjc hc, ?_⟩
    rintro i ⟨_, c1, _, h2, _, _, _, ht, _⟩
    rw [hjc] at h2
    cases h2
    exact ht.symm

theorem translate_balanced_well_paired_witness :
    ∃ p, translate [91, 62, 91, 45, 45, 60, 93, 91, 45, 93, 93, 91, 93] = .ok p ∧
      (∀ (i : Nat) (o : BfOp), p[i]? = some o → o.Command = 91 → Linked p i o.TargetIndex) ∧
      (∀ (j : Nat) (c : BfOp), p[j]? = some c → c.Command = 93 → ∃! i, Linked p i j) ∧
      (∀ i j k l, Linked p i j → Linked p k l → i < k → k < j → l < j) :=
  translate_balanced_well_paired [91, 62, 91, 45, 45, 60, 93, 91, 45, 93, 93, 91, 93]
    (by decide) (by decide)

/-- C6 (counterexample): a source `P` of 2^32 - 3 bytes `+`. `translate P` is one operation,
but `P ++ "[-]"` has 2^32 bytes, `sourceLength` is `uint32(len(source))` = 0, nothing is
scanned and the program returned is empty. -/
theorem translate_clear_idiom_after_long_source :
    translate (List.replicate 4294967293 43) = .ok [⟨0, 43, 253, 0⟩] ∧
    translate (List.replicate 4294967293 43 ++ [91, 45, 93]) = .ok [] :=
  ⟨translate_replicate 43 4294967293 (by decide) (by norm_num) (by norm_num),
    translate_wrapped_empty 4294967293 (by norm_num)⟩

/-- C6 (amended): `translate` of `[-]` is the single operation `z` with index 0, repeat count
1 and jump target 0; and for every source `P` with `len(P) + 3 < 2^32` on which `translate`
returns a program `p`, `translate (P ++ "[-]")` returns `p` followed by one `z` with index
`len(p)`, repeat count 1 and jump target 0 (two operations fewer than without the rewrite). -/
theorem translate_append_clear_idiom (P : List Nat) (p : List BfOp)
    (hlen : P.length + 3 < 2 ^ 32) (h : translate P = .ok p) :
    translate [91, 45, 93] = .ok [⟨0, 122, 1, 0⟩] ∧
    translate (P ++ [91, 45, 93]) = .ok (p ++ [⟨p.length, 122, 1, 0⟩]) := by
  refine ⟨by decide, ?_⟩
  have hPlen : P.length < 2 ^ 32 := by omega
  have hsl : sourceLength P = P.length := Nat.mod_eq_of_lt hPlen
  have hlen2 : (P ++ [91, 45, 93]).length = P.length + 3 := by simp
  have hsl2 : sourceLength (P ++ [91, 45, 93]) = P.length + 3 := by
    unfold sourceLength
    rw [hlen2]
    exact Nat.mod_eq_of_lt hlen
  have hbound : TState.init.ops.length + P.length < 2 ^ 32 := by
    simpa [TState.init] using hPlen
  rw [translate_eq, scanned_of_lt P hPlen, hsl] at h
  cases hl : translateLoop P.length P TState.init with
  | error e => rw [hl] at h; cases h
  | ok st1 =>
    rw [hl] at h
    cases h
    have hinv1 := (translateLoop_invariant (fun _ => True)
      (fun _ _ _ _ _ _ _ _ _ _ _ => trivial) _ _ _ _ inv_init hbound trivial hl).1
    have hlen1 := translateLoop_length _ _ _ _ inv_init hbound hl
    simp only [TState.init, List.length_nil, Nat.zero_add] at hlen1
    rw [translate_eq, scanned_of_lt _ (by rw [hlen2]; omega), hsl2,
      translateLoop_append_open (P.length + 3) P [45, 93] TState.init (by rw [hlen2]),
      translateLoop_fuel (P.length + 3) P.length P TState.init (by omega) (Nat.le_refl _), hl]
    simp only
    rw [translateLoop_clear_idiom P.length st1 hinv1.opIndex_eq (by omega)]

theorem translate_append_clear_idiom_witness :
    translate [91, 45, 93] = .ok [⟨0, 122, 1, 0⟩] ∧
    translate ([43, 43, 91, 62] ++ [91, 45, 93])
      = .ok ([⟨0, 43, 2, 0⟩, ⟨1, 91, 1, 0⟩, ⟨2, 62, 1, 0⟩]
          ++ [⟨([⟨0, 43, 2, 0⟩, ⟨1, 91, 1, 0⟩, ⟨2, 62, 1, 0⟩] : List BfOp).length, 122, 1, 0⟩]) :=
  translate_append_clear_idiom [43, 43, 91, 62] [⟨0, 43, 2, 0⟩, ⟨1, 91, 1, 0⟩, ⟨2, 62, 1, 0⟩]
    (by decide) (by decide)

/-! ## Statements about `preprocess` and whole runs -/

theorem preprocessLoop_eq (commands source : List Nat) :
    preprocessLoop commands source = commands ++ source.filter (fun b => decide (b ∈ COMMANDS)) := by
  induction source generalizing commands with
  | nil => simp [preprocessLoop]
  | cons b r ih =>
    by_cases h : b ∈ COMMANDS
    · simp [preprocessLoop, h, ih]
    · simp [preprocessLoop, h, ih]

/-- C11: the classic Hello World source, filtered, translated and executed from the fresh state
with empty input, halts (582 loop iterations are enough) and has written exactly the 13 bytes
of `Hello World!` followed by a line feed. -/
theorem hello_world_output :
    runSource 582 helloWorldSource []
      = .ok [72, 101, 108, 108, 111, 32, 87, 111, 114, 108, 100, 33, 10] ∧
    bytesOf "Hello World!\n" = [72, 101, 108, 108, 111, 32, 87, 111, 114, 108, 100, 33, 10] := by
  constructor
  · decide!
  · decide

/-- C12: `preprocess` is a total function and returns exactly the bytes of `x` that belong to
`COMMANDS`, in their order and with their multiplicity: it is `List.filter` by membership. -/
theorem preprocess_eq_filter (x : List Nat) :
    preprocess x = x.filter (fun b => decide (b ∈ COMMANDS)) ∧
    (preprocess x).Sublist x ∧
    (∀ b ∈ COMMANDS, (preprocess x).count b = x.count b) ∧
    (∀ b ∈ preprocess x, b ∈ COMMANDS) := by
  have h : preprocess x = x.filter (fun b => decide (b ∈ COMMANDS)) := by
    simp [preprocess, preprocessLoop_eq]
  refine ⟨h, ?_, ?_, ?_⟩
  · rw [h]; exact List.filter_sublist x
  · intro b hb
    rw [h, List.count_filter]
    simpa using hb
  · intro b hb
    rw [h] at hb
    simpa using (List.mem_filter.mp hb).2

/-- C13: filtering is idempotent. -/
theorem preprocess_idempotent (x : List Nat) : preprocess (preprocess x) = preprocess x := by
  simp [preprocess, preprocessLoop_eq]

/-- C14: with the pointer `p` in `[0, 3000)` and a repeat count `r` in `1..255`, move-right
sets the pointer to `(p + r) mod 3000` and move-left to the non-negative residue
`(p - r) mod 3000`; both stay in `[0, 3000)`, so the next cell access does not panic; memory,
input and output are unchanged. From 2999 right by 1 gives 0, from 0 left by 1 gives 2999. -/
theorem pointer_moves_wrap (m : Machine) (i r t : Nat) (h0 : 0 ≤ m.ptr)
    (h1 : m.ptr < (MAX_MEM : Int)) (hr1 : 1 ≤ r) (hr2 : r ≤ 255) :
    dispatch ⟨i, 62, r, t⟩ m = .ok { m with ptr := (m.ptr + (r : Int)) % 3000 } ∧
    dispatch ⟨i, 60, r, t⟩ m = .ok { m with ptr := (m.ptr - (r : Int)) % 3000 } ∧
    (0 ≤ (m.ptr + (r : Int)) % 3000 ∧ (m.ptr + (r : Int)) % 3000 < 3000) ∧
    (0 ≤ (m.ptr - (r : Int)) % 3000 ∧ (m.ptr - (r : Int)) % 3000 < 3000) ∧
    readCell m.mem ((m.ptr + (r : Int)) % 3000)
      = .ok (m.mem.getD ((m.ptr + (r : Int)) % 3000).toNat 0) ∧
    readCell m.mem ((m.ptr - (r : Int)) % 3000)
      = .ok (m.mem.getD ((m.ptr - (r : Int)) % 3000).toNat 0) ∧
    ((2999 : Int) + ((1 : Nat) : Int)) % 3000 = 0 ∧
    ((0 : Int) - ((1 : Nat) : Int)) % 3000 = 2999 := by
  have hM : (MAX_MEM : Int) = 3000 := rfl
  rw [hM] at h1
  have e1 : Int.tmod (m.ptr + (r : Int)) 3000 = (m.ptr + (r : Int)) % 3000 :=
    Int.tmod_eq_emod (by omega) (by norm_num)
  have e2 : Int.tmod (m.ptr - (r : Int) + 3000) 3000 = (m.ptr - (r : Int)) % 3000 := by
    rw [Int.tmod_eq_emod (by omega) (by norm_num), Int.add_emod_self]
  have b1 : 0 ≤ (m.ptr + (r : Int)) % 3000 ∧ (m.ptr + (r : Int)) % 3000 < 3000 := by omega
  have b2 : 0 ≤ (m.ptr - (r : Int)) % 3000 ∧ (m.ptr - (r : Int)) % 3000 < 3000 := by omega
  refine ⟨?_, ?_, b1, b2, ?_, ?_, by decide, by decide⟩
  · simp only [dispatch, hM]
    simp [e1]
  · simp only [dispatch, hM]
    simp [e2]
  · exact readCell_ok _ _ b1.1 (by rw [hM]; exact b1.2)
  · exact readCell_ok _ _ b2.1 (by rw [hM]; exact b2.2)

theorem pointer_moves_wrap_witness :
    dispatch ⟨0, 62, 1, 0⟩ { sampleMachine with ptr := 2999 }
      = .ok { { sampleMachine with ptr := 2999 } with ptr := ((2999 : Int) + ((1 : Nat) : Int)) % 3000 } ∧
    dispatch ⟨0, 60, 1, 0⟩ sampleMachine
      = .ok { sampleMachine with ptr := (sampleMachine.ptr - ((1 : Nat) : Int)) % 3000 } :=
  ⟨(pointer_moves_wrap { sampleMachine with ptr := 2999 } 0 1 0 (by decide) (by decide)
      (by decide) (by decide)).1,
   (pointer_moves_wrap sampleMachine 0 1 0 (by decide) (by decide)
      (by decide) (by decide)).2.1⟩

/-- C15: increment sets the current cell `v` to `(v + r) mod 256` and decrement to
`(v - r) mod 256` (the residue in `0..255`), for every repeat count `r`; every other cell, the
pointer, the input and the output are unchanged. 255 plus 1 is 0 and 0 minus 1 is 255. -/
theorem cell_arithmetic_wraps (m : Machine) (i r t : Nat) (h0 : 0 ≤ m.ptr)
    (h1 : m.ptr < (MAX_MEM : Int)) (hlen : m.mem.length = MAX_MEM) :
    dispatch ⟨i, 43, r, t⟩ m
      = .ok { m with mem := m.mem.set m.ptr.toNat ((m.mem.getD m.ptr.toNat 0 + r) % 256) } ∧
    dispatch ⟨i, 45, r, t⟩ m
      = .ok { m with mem := (m.mem.set m.ptr.toNat
          ((((m.mem.getD m.ptr.toNat 0 : Nat) : Int) - (r : Int)) % 256).toNat) } ∧
    (∀ x, (m.mem.set m.ptr.toNat x).getD m.ptr.toNat 0 = x) ∧
    (∀ x j, j ≠ m.ptr.toNat → (m.mem.set m.ptr.toNat x).getD j 0 = m.mem.getD j 0) ∧
    (255 + 1) % 256 = 0 ∧ ((((0 : Nat) : Int) - ((1 : Nat) : Int)) % 256).toNat = 255 := by
  have hM : (MAX_MEM : Int) = 3000 := rfl
  have hp : m.ptr.toNat < m.mem.length := by
    rw [hlen]; have : MAX_MEM = 3000 := rfl; omega
  have e : ∀ v : Nat, (v + 256 - r % 256) % 256 = (((v : Int) - (r : Int)) % 256).toNat := by
    intro v; omega
  refine ⟨?_, ?_, ?_, ?_, by decide, by decide⟩
  · simp only [dispatch, readCell_ok _ _ h0 h1, writeCell_ok _ _ _ h0 h1]
    simp
  · simp only [dispatch, readCell_ok _ _ h0 h1, writeCell_ok _ _ _ h0 h1, e]
    simp
  · intro x
    simp [List.getD_eq_getElem?_getD, List.getElem?_set_self hp]
  · intro x j hj
    simp [List.getD_eq_getElem?_getD, List.getElem?_set_ne (fun e => hj e.symm)]

theorem sampleMachine_length : sampleMachine.mem.length = MAX_MEM := by
  show (3 :: List.replicate 2999 0).length = 3000
  rw [List.length_cons, List.length_replicate]

theorem cell_arithmetic_wraps_witness :
    dispatch ⟨0, 43, 254, 0⟩ sampleMachine
      = .ok { sampleMachine with mem := (sampleMachine.mem.set sampleMachine.ptr.toNat
          ((sampleMachine.mem.getD sampleMachine.ptr.toNat 0 + 254) % 256)) } ∧
    (sampleMachine.mem.getD sampleMachine.ptr.toNat 0 + 254) % 256 = 1 :=
  ⟨(cell_arithmetic_wraps sampleMachine 0 254 0 (by decide) (by decide)
      sampleMachine_length).1, by decide⟩

/-! ## More invariants of the translated program -/

theorem getElem?_set_target (ops : List BfOp) (s t i : Nat) (o x : BfOp)
    (ho : ops[s]? = some o) (h : (ops.set s { o with TargetIndex := t })[i]? = some x) :
    ∃ y, ops[i]? = some y ∧ y.Command = x.Command ∧ y.RepeatCount = x.RepeatCount ∧
      y.Index = x.Index := by
  rcases getElem?_set_cases _ _ _ _ _ h with ⟨h1, h2⟩ | ⟨_, h2⟩
  · subst h1; subst h2; exact ⟨o, ho, rfl, rfl, rfl⟩
  · exact ⟨x, h2, rfl, rfl, rfl⟩

theorem repeatOne_step (st : TState) (cmd rc : Nat) (st1 : TState) (hp : RepeatOne st)
    (hrc : cmd ∉ REPEATABLE_COMMANDS → rc = 1) (hshape : StepShape cmd rc st st1) :
    RepeatOne st1 := by
  intro i x hx hnr
  cases hshape with
  | plain h hops hstack =>
    rw [hops] at hx
    rcases getElem?_snoc_cases _ _ _ _ hx with h1 | ⟨_, h2⟩
    · exact hp i x h1 hnr
    · subst h2; exact hrc hnr
  | close h s stk o hs ho hops hstack hno =>
    rw [hops] at hx
    rcases getElem?_snoc_cases _ _ _ _ hx with h1 | ⟨_, h2⟩
    · obtain ⟨y, hy, hc, hr, _⟩ := getElem?_set_target _ _ _ _ _ _ ho h1
      rw [← hr]; exact hp i y hy (by rw [hc]; exact hnr)
    · subst h2; subst h; exact hrc hnr
  | clear h s stk o hs ho pre c b hpre hc hb hops hstack =>
    rw [hops] at hx
    rcases getElem?_snoc_cases _ _ _ _ hx with h1 | ⟨_, h2⟩
    · have h2 : (pre ++ [c, b])[i]? = some x := getElem?_of_append_left h1
      rw [← hpre] at h2
      obtain ⟨y, hy, hc, hr, _⟩ := getElem?_set_target _ _ _ _ _ _ ho h2
      rw [← hr]; exact hp i y hy (by rw [hc]; exact hnr)
    · subst h2; rfl

theorem eq_take_append_two {α : Type} (l : List α) (i : Nat) (a b : α) (ha : l[i]? = some a)
    (hb : l[i + 1]? = some b) (hl : l.length = i + 2) : l = l.take i ++ [a, b] := by
  apply List.ext_getElem?
  intro j
  by_cases hj : j < i
  · rw [List.getElem?_append_left (by simp; omega), List.getElem?_take_of_lt hj]
  · have hlen : (l.take i).length = i := by simp; omega
    by_cases hj0 : j = i
    · subst hj0
      have := getElem?_append_add (l.take j) [a, b] 0
      rw [hlen] at this
      rw [ha]; exact this.symm
    · by_cases hj1 : j = i + 1
      · subst hj1
        have := getElem?_append_add (l.take i) [a, b] 1
        rw [hlen] at this
        rw [hb]; exact this.symm
      · rw [List.getElem?_eq_none (by omega), List.getElem?_eq_none (by simp; omega)]

theorem noIdiom_step (st : TState) (cmd rc : Nat) (st1 : TState) (hp : NoIdiom st.ops)
    (hshape : StepShape cmd rc st st1) : NoIdiom st1.ops := by
  intro i a b c ha hb hc hcon
  cases hshape with
  | plain h hops hstack =>
    rw [hops] at ha hb hc
    rcases getElem?_snoc_cases _ _ _ _ hc with h1 | ⟨_, h2⟩
    · have hi := lt_of_getElem?_eq_some h1
      rw [List.getElem?_append_left (by omega)] at ha hb
      exact hp i a b c ha hb h1 hcon
    · subst h2; exact h hcon.2.2
  | close h s stk o hs ho hops hstack hno =>
    rw [hops] at ha hb hc
    rcases getElem?_snoc_cases _ _ _ _ hc with h1 | ⟨h2, _⟩
    · have hi := lt_of_getElem?_eq_some h1
      rw [List.getElem?_append_left (by omega)] at ha hb
      obtain ⟨a1, ha1, hca, _⟩ := getElem?_set_target _ _ _ _ _ _ ho ha
      obtain ⟨b1, hb1, hcb, _⟩ := getElem?_set_target _ _ _ _ _ _ ho hb
      obtain ⟨c1, hc1, hcc, _⟩ := getElem?_set_target _ _ _ _ _ _ ho h1
      exact hp i a1 b1 c1 ha1 hb1 hc1 (by rw [hca, hcb, hcc]; exact hcon)
    · rw [List.getElem?_append_left (by omega)] at ha hb
      exact hno _ a b (eq_take_append_two _ i a b ha hb h2.symm) ⟨hcon.1, hcon.2.1⟩
  | clear h s stk o hs ho pre c0 b0 hpre hc0 hb0 hops hstack =>
    rw [hops] at ha hb hc
    rcases getElem?_snoc_cases _ _ _ _ hc with h1 | ⟨_, h2⟩
    · have hi := lt_of_getElem?_eq_some h1
      rw [List.getElem?_append_left (by omega)] at ha hb
      have ha2 : (pre ++ [c0, b0])[i]? = some a := getElem?_of_append_left ha
      have hb2 : (pre ++ [c0, b0])[i + 1]? = some b := getElem?_of_append_left hb
      have hc2 : (pre ++ [c0, b0])[i + 2]? = some c := getElem?_of_append_left h1
      rw [← hpre] at ha2 hb2 hc2
      obtain ⟨a1, ha1, hca, _⟩ := getElem?_set_target _ _ _ _ _ _ ho ha2
      obtain ⟨b1, hb1, hcb, _⟩ := getElem?_set_target _ _ _ _ _ _ ho hb2
      obtain ⟨c1, hc1, hcc, _⟩ := getElem?_set_target _ _ _ _ _ _ ho hc2
      exact hp i a1 b1 c1 ha1 hb1 hc1 (by rw [hca, hcb, hcc]; exact hcon)
    · subst h2
      have := hcon.2.2
      simp at this

theorem translate_ok_state (s : List Nat) (p : List BfOp) (h : translate s = .ok p) :
    ∃ st1, translateLoop (sourceLength s) (scanned s) TState.init = .ok st1 ∧ st1.ops = p := by
  rw [translate_eq] at h
  cases hl : translateLoop (sourceLength s) (scanned s) TState.init with
  | error e => rw [hl] at h; cases h
  | ok st1 =>
    rw [hl] at h
    cases h
    exact ⟨st1, rfl, rfl⟩

theorem map_range_succ_shift (a k : Nat) :
    (List.range (k + 1)).map (fun i => (⟨a + i, 44, 1, 0⟩ : BfOp))
      = ⟨a, 44, 1, 0⟩ :: (List.range k).map (fun i => ⟨a + 1 + i, 44, 1, 0⟩) := by
  rw [List.range_succ_eq_map, List.map_cons, List.map_map]
  congr 1
  apply List.map_congr_left
  intro i _
  simp only [Function.comp, Nat.succ_eq_add_one, BfOp.mk.injEq, and_true]
  omega

/-- The outer loop on `k` input commands appends `k` operations `,` with repeat count 1. -/
theorem translateLoop_inputs (k fuel : Nat) (st : TState) (hf : k ≤ fuel)
    (hlen : st.opIndex + k < 2 ^ 32) :
    translateLoop fuel (List.replicate k 44) st
      = .ok { ops := st.ops ++ (List.range k).map (fun i => ⟨st.opIndex + i, 44, 1, 0⟩),
              jumpsStack := st.jumpsStack, opIndex := st.opIndex + k } := by
  induction k generalizing fuel st with
  | zero => simp [translateLoop_nil]
  | succ k ih =>
    obtain ⟨f, rfl⟩ : ∃ f, fuel = f + 1 := ⟨fuel - 1, by omega⟩
    rw [List.replicate_succ, translateLoop_cons,
      consumeRun_not_repeatable 44 (by decide) 1 _, translateStep_of_ne 44 1 st (by decide)]
    simp only [show ((44 : Nat) = 91) = False from by decide, if_false]
    have e : (st.opIndex + 1) % 2 ^ 32 = st.opIndex + 1 := Nat.mod_eq_of_lt (by omega)
    have e2 : st.opIndex + 1 + k = st.opIndex + (k + 1) := by omega
    rw [e, ih f _ (by omega) (by simp only; omega), map_range_succ_shift st.opIndex k]
    simp only [List.append_assoc, List.singleton_append, e2]

theorem translate_inputs (n : Nat) (hn : n < 2 ^ 32) :
    translate (List.replicate n 44) = .ok (inputOps n) := by
  have hl : sourceLength (List.replicate n 44) = n := by
    unfold sourceLength
    rw [List.length_replicate]
    exact Nat.mod_eq_of_lt hn
  rw [translate_eq, scanned_of_lt _ (by rw [List.length_replicate]; exact hn), hl,
    translateLoop_inputs n n TState.init (Nat.le_refl _) (by simpa [TState.init] using hn)]
  simp [TState.init, inputOps]

theorem translate_inputs_wrapped (n : Nat) (hn : n % 2 ^ 32 = 0) :
    translate (List.replicate n 44) = .ok [] := by
  have hl : sourceLength (List.replicate n 44) = 0 := by
    unfold sourceLength
    rw [List.length_replicate]
    exact hn
  have hsc : scanned (List.replicate n 44) = [] := by
    unfold scanned
    rw [hl, List.take_zero]
  rw [translate_eq, hl, hsc]
  rfl

/-- C16 (counterexample): a source of 2^32 input commands. `sourceLength` is
`uint32(len(source))` = 0, nothing is scanned and the program has no operation at all. -/
theorem translate_inputs_longer_than_uint32 :
    translate (List.replicate 4294967296 44) = .ok [] :=
  translate_inputs_wrapped 4294967296 (by norm_num)

/-- C16 (amended): in every program `translate` returns, an operation whose command is
loop-open, loop-close, input or the clear `z` has repeat count 1; and a source of `n < 2^32`
input commands yields `n` operations, one per command. -/
theorem translate_unfolded_repeat_one (s : List Nat) (p : List BfOp) (h : translate s = .ok p)
    (i : Nat) (o : BfOp) (ho : p[i]? = some o)
    (hc : o.Command = 91 ∨ o.Command = 93 ∨ o.Command = 44 ∨ o.Command = 122)
    (n : Nat) (hn : n < 2 ^ 32) :
    o.RepeatCount = 1 ∧
    translate (List.replicate n 44) = .ok (inputOps n) ∧ (inputOps n).length = n := by
  refine ⟨?_, translate_inputs n hn, by simp [inputOps]⟩
  obtain ⟨st1, hl, rfl⟩ := translate_ok_state s p h
  have := (translateLoop_invariant RepeatOne
    (fun st cmd rc st1 _ _ hp _ hrc hshape _ => repeatOne_step st cmd rc st1 hp hrc hshape)
    _ _ _ _ inv_init (translateLoop_scanned_bound s)
    (by intro i o h; simp [TState.init] at h) hl).2
  refine this i o ho ?_
  rcases hc with hc | hc | hc | hc <;> rw [hc] <;> decide

theorem translate_unfolded_repeat_one_witness :
    (⟨1, 93, 1, 0⟩ : BfOp).RepeatCount = 1 ∧
    translate (List.replicate 3 44) = .ok (inputOps 3) ∧ (inputOps 3).length = 3 :=
  translate_unfolded_repeat_one [91, 93, 44, 44]
    [⟨0, 91, 1, 1⟩, ⟨1, 93, 1, 0⟩, ⟨2, 44, 1, 0⟩, ⟨3, 44, 1, 0⟩]
    (by decide) 1 ⟨1, 93, 1, 0⟩ (by decide) (by decide) 3 (by norm_num)

/-- C19: in every program `translate` returns, no three consecutive operations are a
loop-open, a decrement (with repeat count 1 or any other) and a loop-close. -/
theorem translate_no_idiom_left (s : List Nat) (p : List BfOp) (h : translate s = .ok p)
    (i : Nat) (a b c : BfOp) (ha : p[i]? = some a) (hb : p[i + 1]? = some b)
    (hc : p[i + 2]? = some c) :
    ¬ (a.Command = 91 ∧ (b.Command = 45 ∧ b.RepeatCount = 1) ∧ c.Command = 93) ∧
    ¬ (a.Command = 91 ∧ b.Command = 45 ∧ c.Command = 93) := by
  obtain ⟨st1, hl, rfl⟩ := translate_ok_state s p h
  have := (translateLoop_invariant (fun st => NoIdiom st.ops)
    (fun st cmd rc st1 _ _ hp _ _ hshape _ => noIdiom_step st cmd rc st1 hp hshape)
    _ _ _ _ inv_init (translateLoop_scanned_bound s)
    (by intro i a b c h; simp [TState.init] at h) hl).2
  have h2 := this i a b c ha hb hc
  exact ⟨fun hcon => h2 ⟨hcon.1, hcon.2.1.1, hcon.2.2⟩, h2⟩

theorem translate_no_idiom_left_witness :
    ¬ ((⟨0, 91, 1, 3⟩ : BfOp).Command = 91 ∧
        ((⟨1, 122, 1, 0⟩ : BfOp).Command = 45 ∧ (⟨1, 122, 1, 0⟩ : BfOp).RepeatCount = 1) ∧
        (⟨2, 45, 1, 0⟩ : BfOp).Command = 93) ∧
    ¬ ((⟨0, 91, 1, 3⟩ : BfOp).Command = 91 ∧ (⟨1, 122, 1, 0⟩ : BfOp).Command = 45 ∧
        (⟨2, 45, 1, 0⟩ : BfOp).Command = 93) :=
  translate_no_idiom_left [91, 91, 45, 93, 45, 93]
    [⟨0, 91, 1, 3⟩, ⟨1, 122, 1, 0⟩, ⟨2, 45, 1, 0⟩, ⟨3, 93, 1, 0⟩] (by decide) 0
    ⟨0, 91, 1, 3⟩ ⟨1, 122, 1, 0⟩ ⟨2, 45, 1, 0⟩ (by decide) (by decide) (by decide)

/-! ## Unfolding a program back into its source -/

theorem unfoldOps_append (l r : List BfOp) : unfoldOps (l ++ r) = unfoldOps l ++ unfoldOps r := by
  induction l with
  | nil => rfl
  | cons o l ih => simp [unfoldOps, ih]

theorem unfoldOps_set_target (ops : List BfOp) (s t : Nat) (o : BfOp) (ho : ops[s]? = some o) :
    unfoldOps (ops.set s { o with TargetIndex := t }) = unfoldOps ops := by
  induction ops generalizing s with
  | nil => simp at ho
  | cons a r ih =>
    cases s with
    | zero =>
      simp at ho
      subst ho
      simp [unfoldOps, unfoldOp]
    | succ s =>
      simp at ho
      simp [unfoldOps, ih s ho]

theorem posCount_step (st : TState) (cmd rc : Nat) (st1 : TState) (hp : PosCount st.ops)
    (hrc : 1 ≤ rc) (hshape : StepShape cmd rc st st1) : PosCount st1.ops := by
  intro i x hx
  cases hshape with
  | plain h hops hstack =>
    rw [hops] at hx
    rcases getElem?_snoc_cases _ _ _ _ hx with h1 | ⟨_, h2⟩
    · exact hp i x h1
    · subst h2; exact hrc
  | close h s stk o hs ho hops hstack hno =>
    rw [hops] at hx
    rcases getElem?_snoc_cases _ _ _ _ hx with h1 | ⟨_, h2⟩
    · obtain ⟨y, hy, _, hr, _⟩ := getElem?_set_target _ _ _ _ _ _ ho h1
      rw [← hr]; exact hp i y hy
    · subst h2; exact hrc
  | clear h s stk o hs ho pre c b hpre hc hb hops hstack =>
    rw [hops] at hx
    rcases getElem?_snoc_cases _ _ _ _ hx with h1 | ⟨_, h2⟩
    · have h2 : (pre ++ [c, b])[i]? = some x := getElem?_of_append_left h1
      rw [← hpre] at h2
      obtain ⟨y, hy, _, hr, _⟩ := getElem?_set_target _ _ _ _ _ _ ho h2
      rw [← hr]; exact hp i y hy
    · subst h2; exact Nat.le_refl 1

/-- One iteration keeps the text: after scanning the byte `b` and `k` more copies of it, the
program unfolds to what has been scanned. -/
theorem unfold_step (s done rest1 : List Nat) (b k : Nat) (st st1 : TState)
    (hs : s = done ++ (b :: List.replicate k b ++ rest1)) (hb : b ≠ 122)
    (hidiom : NoLongIdiom s) (hone : RepeatOne st) (hpos : PosCount st.ops)
    (hun : unfoldOps st.ops = done) (hshape : StepShape b (1 + k) st st1)
    (hk : b = 93 → k = 0) :
    unfoldOps st1.ops = done ++ (b :: List.replicate k b) := by
  have hnew : unfoldOp ⟨st.ops.length, b, 1 + k, 0⟩ = b :: List.replicate k b := by
    simp [unfoldOp, hb, Nat.add_comm 1 k, List.replicate_succ]
  cases hshape with
  | plain h hops hstack =>
    rw [hops, unfoldOps_append, hun]
    simp [unfoldOps, hnew]
  | close h s0 stk o hs0 ho hops hstack hno =>
    have hk0 := hk h
    subst hk0
    rw [hops, unfoldOps_append, unfoldOps_set_target _ _ _ _ ho, hun, h]
    simp [unfoldOps, unfoldOp]
  | clear h s0 stk o hs0 ho pre c b0 hpre hc hb0 hops hstack =>
    have hk0 := hk h
    subst hk0
    have hun2 : unfoldOps (pre ++ [c, b0]) = done := by
      rw [← hpre, unfoldOps_set_target _ _ _ _ ho, hun]
    have hcget : (pre ++ [c, b0])[pre.length + 0]? = some c := getElem?_append_add pre [c, b0] 0
    have hbget : (pre ++ [c, b0])[pre.length + 1]? = some b0 := getElem?_append_add pre [c, b0] 1
    rw [← hpre] at hcget hbget
    obtain ⟨c1, hc1, hcc, hcr, _⟩ := getElem?_set_target _ _ _ _ _ _ ho hcget
    obtain ⟨b1, hb1, hbc, hbr, _⟩ := getElem?_set_target _ _ _ _ _ _ ho hbget
    have hcrc : c.RepeatCount = 1 := by
      rw [← hcr]; exact hone _ c1 hc1 (by rw [hcc, hc]; decide)
    have hbpos : 1 ≤ b0.RepeatCount := by rw [← hbr]; exact hpos _ b1 hb1
    have huc : unfoldOp c = [91] := by simp [unfoldOp, hc, hcrc]
    have hub : unfoldOp b0 = List.replicate b0.RepeatCount 45 := by simp [unfoldOp, hb0]
    have hdone : done = unfoldOps pre ++ 91 :: List.replicate b0.RepeatCount 45 := by
      rw [← hun2, unfoldOps_append]
      simp [unfoldOps, huc, hub]
    have hlt : b0.RepeatCount < 2 := by
      apply hidiom (unfoldOps pre) rest1 b0.RepeatCount
      rw [hs, hdone, h]
      simp
    have hb1 : b0.RepeatCount = 1 := by omega
    rw [hops, unfoldOps_append, hdone, hb1, h]
    simp [unfoldOps, unfoldOp]

/-- Along the outer loop the program unfolds to the bytes scanned so far; at the end it
unfolds to the whole source. -/
theorem translateLoop_unfold (s : List Nat) (hfil : ∀ b ∈ s, b ∈ COMMANDS)
    (hruns : RunsShort s) (hidiom : NoLongIdiom s) (fuel : Nat) (src done : List Nat)
    (st st1 : TState) (hs : s = done ++ src) (hinv : Inv st) (hone : RepeatOne st)
    (hpos : PosCount st.ops) (hun : unfoldOps st.ops = done)
    (hlen : st.ops.length + src.length < 2 ^ 32)
    (h : translateLoop fuel src st = .ok st1) : unfoldOps st1.ops = s := by
  induction fuel generalizing src done st with
  | zero =>
    cases src with
    | nil => rw [translateLoop_nil] at h; cases h; rw [hun, hs]; simp
    | cons b rest => simp [translateLoop] at h
  | succ f ih =>
    cases src with
    | nil => rw [translateLoop_nil] at h; cases h; rw [hun, hs]; simp
    | cons b rest =>
      rw [translateLoop_cons] at h
      simp only [List.length_cons] at hlen
      obtain ⟨k, hk1, hk2, hk3⟩ := consumeRun_spec b 1 rest (by norm_num)
      have hrl := consumeRun_length b 1 rest
      cases hst : translateStep b (consumeRun b 1 rest).1 st with
      | error e => rw [hst] at h; cases h
      | ok st2 =>
        rw [hst] at h
        obtain ⟨hshape, hidx⟩ := translateStep_shape _ _ _ _ hinv (by omega) hst
        have hle := hshape.length_le
        have hs1 : s = done ++ (b :: List.replicate k b ++ (consumeRun b 1 rest).2) := by
          rw [hs]
          conv_lhs => rw [hk1]
          simp
        have hb122 : b ≠ 122 := by
          intro e
          have hm : b ∈ s := by rw [hs]; simp
          have := hfil b hm
          rw [e] at this
          revert this
          decide
        have hk0 : b ∉ REPEATABLE_COMMANDS → k = 0 := by
          intro hnr
          by_contra hne
          exact hnr (hk3 (by omega))
        have hrc : (consumeRun b 1 rest).1 = 1 + k := by
          rw [hk2]
          by_cases hrep : b ∈ REPEATABLE_COMMANDS
          · have := hruns b hrep done (consumeRun b 1 rest).2 (k + 1) (by
              rw [hs1, List.replicate_succ])
            exact Nat.mod_eq_of_lt (by omega)
          · rw [hk0 hrep]
        rw [hrc] at hshape
        have hun2 := unfold_step s done (consumeRun b 1 rest).2 b k st st2 hs1 hb122 hidiom
          hone hpos hun hshape (fun e => hk0 (by rw [e]; decide))
        refine ih (consumeRun b 1 rest).2 (done ++ (b :: List.replicate k b)) st2 ?_
          (hshape.inv hinv hidx) ?_ ?_ hun2 (by omega) h
        · rw [hs1]; simp
        · exact repeatOne_step st b (1 + k) st2 hone (fun hnr => by rw [hk0 hnr]) hshape
        · exact posCount_step st b (1 + k) st2 hpos (by omega) hshape

theorem commas_satisfy_hypotheses (n : Nat) :
    (∀ b ∈ List.replicate n 44, b ∈ COMMANDS) ∧
    (∀ k ≤ (List.replicate n 44).length,
      ((List.replicate n 44).take k).count 93 ≤ ((List.replicate n 44).take k).count 91) ∧
    RunsShort (List.replicate n 44) ∧ NoLongIdiom (List.replicate n 44) := by
  refine ⟨?_, ?_, ?_, ?_⟩
  · intro b hb
    rw [List.eq_of_mem_replicate hb]
    decide
  · intro k _
    have : ((List.replicate n 44).take k).count 93 = 0 := by
      apply List.count_eq_zero_of_not_mem
      intro hm
      have := List.eq_of_mem_replicate (List.mem_of_mem_take hm)
      omega
    omega
  · intro c hc pre suf k hs
    by_contra hk
    have hm : c ∈ List.replicate n 44 := by
      rw [hs]
      obtain ⟨j, rfl⟩ : ∃ j, k = j + 1 := ⟨k - 1, by omega⟩
      simp [List.replicate_succ]
    have := List.eq_of_mem_replicate hm
    subst this
    revert hc
    decide
  · intro pre suf k hs
    have hm : 91 ∈ List.replicate n 44 := by rw [hs]; simp
    have := List.eq_of_mem_replicate hm
    omega

theorem replicate_succ_ne_nil (n : Nat) : unfoldOps [] ≠ List.replicate (n + 1) 44 := by
  simp [unfoldOps, List.replicate_succ]

/-- C20 (counterexample): a source of 2^32 input commands is filtered, has no bracket and no
run of a repeatable command, yet the program returned for it is empty (`sourceLength` is
`uint32(len(source))` = 0) and unfolds to the empty text, not to the source. -/
theorem translate_unfold_longer_than_uint32 :
    ((∀ b ∈ List.replicate 4294967296 44, b ∈ COMMANDS) ∧
      (∀ k ≤ (List.replicate 4294967296 44).length,
        ((List.replicate 4294967296 44).take k).count 93
          ≤ ((List.replicate 4294967296 44).take k).count 91) ∧
      RunsShort (List.replicate 4294967296 44) ∧ NoLongIdiom (List.replicate 4294967296 44)) ∧
    translate (List.replicate 4294967296 44) = .ok [] ∧
    unfoldOps [] ≠ List.replicate (4294967295 + 1) 44 :=
  ⟨commas_satisfy_hypotheses 4294967296, translate_inputs_wrapped 4294967296 (by norm_num),
    replicate_succ_ne_nil 4294967295⟩

/-- C20 (amended): for every filtered source `s` shorter than 2^32 bytes in which no prefix
has more `]` than `[`, every run of one repeatable command is at most 255 long and no `[` is
followed by two or more `-` and then `]`, `translate s` returns a program whose unfolding
(each command repeated repeat-count times, each `z` as `[-]`) is `s`. -/
theorem translate_unfolds_to_source (s : List Nat) (hlen : s.length < 2 ^ 32)
    (hfil : ∀ b ∈ s, b ∈ COMMANDS)
    (hpre : ∀ k ≤ s.length, (s.take k).count 93 ≤ (s.take k).count 91)
    (hruns : RunsShort s) (hidiom : NoLongIdiom s) :
    ∃ p, translate s = .ok p ∧ unfoldOps p = s := by
  have hsl : sourceLength s = s.length := Nat.mod_eq_of_lt hlen
  have hbound : TState.init.ops.length + s.length < 2 ^ 32 := by simpa [TState.init] using hlen
  have hd := bracketDepth_some_of_count s 0 (by intro k hk; simpa using hpre k hk)
  have hloop := translateLoop_depth s.length s TState.init inv_init hbound (Nat.le_refl _)
  have hst : TState.init.jumpsStack.length = 0 := rfl
  rw [hst, hd] at hloop
  obtain ⟨st1, h1, _⟩ := hloop
  refine ⟨st1.ops, by rw [translate_eq, scanned_of_lt s hlen, hsl, h1], ?_⟩
  exact translateLoop_unfold s hfil hruns hidiom s.length s [] TState.init st1 (by simp)
    inv_init (by intro i o h; simp [TState.init] at h)
    (by intro i o h; simp [TState.init] at h) rfl hbound h1

theorem translate_unfolds_to_source_witness :
    ∃ p, translate [91, 45, 93] = .ok p ∧ unfoldOps p = [91, 45, 93] :=
  translate_unfolds_to_source [91, 45, 93] (by decide) (by decide) (by decide)
    (by
      intro c _ pre suf k hs
      have := congrArg List.length hs
      simp at this
      omega)
    (by
      intro pre suf k hs
      have := congrArg List.length hs
      simp at this
      omega)

/-! ## Straight-line programs and the 16-bit instruction pointer -/

theorem dispatch_withIp (op : BfOp) (h91 : op.Command ≠ 91) (h93 : op.Command ≠ 93)
    (m : Machine) (x : Nat) :
    dispatch op (withIp x m) = (dispatch op m).map (withIp x) := by
  simp only [dispatch, readCell, writeCell, withIp, h91, h93, if_false]
  split_ifs <;> rfl

theorem dispatch_keeps_ip (op : BfOp) (h91 : op.Command ≠ 91) (h93 : op.Command ≠ 93)
    (m m1 : Machine) (h : dispatch op m = .ok m1) : m1.ip = m.ip := by
  simp only [dispatch, readCell, writeCell, h91, h93, if_false] at h
  split_ifs at h <;> (cases h; rfl)

theorem applyOps_withIp (ops : List BfOp) (hno : ∀ o ∈ ops, o.Command ≠ 91 ∧ o.Command ≠ 93)
    (m : Machine) (x : Nat) : applyOps ops (withIp x m) = (applyOps ops m).map (withIp x) := by
  induction ops generalizing m with
  | nil => rfl
  | cons op r ih =>
    have h := hno op (by simp)
    simp only [applyOps]
    rw [dispatch_withIp op h.1 h.2]
    cases dispatch op m with
    | error e => rfl
    | ok m1 =>
      simp only [Except.map]
      exact ih (fun o ho => hno o (by simp [ho])) m1

theorem withIp_withIp (x y : Nat) (m : Machine) : withIp x (withIp y m) = withIp x m := rfl

theorem withIp_self (m : Machine) : withIp m.ip m = m := rfl

/-- A program of fewer than 65536 operations without loop-open and loop-close, entered at
operation `ip`, runs the operations from there to the end, each once and in order, in exactly
one loop iteration each, and halts with the instruction pointer at the program length. -/
theorem execLoop_straight (ops : List BfOp) (hno : ∀ o ∈ ops, o.Command ≠ 91 ∧ o.Command ≠ 93)
    (hlen : ops.length < 65536) (j : Nat) (m : Machine) (fuel : Nat)
    (hj : m.ip + j = ops.length) (hf : j ≤ fuel) :
    execLoop fuel ops m = (applyOps (ops.drop m.ip) m).map (withIp ops.length) := by
  have hmod : ops.length % 65536 = ops.length := Nat.mod_eq_of_lt hlen
  induction j generalizing m fuel with
  | zero =>
    rw [execLoop_halt _ _ _ (by rw [hmod]; omega), List.drop_of_length_le (by omega)]
    simp only [applyOps, Except.map]
    rw [← (show m.ip = ops.length by omega), withIp_self]
  | succ j ih =>
    obtain ⟨f, rfl⟩ : ∃ f, fuel = f + 1 := ⟨fuel - 1, by omega⟩
    have hip : m.ip < ops.length := by omega
    have hget : ops[m.ip]? = some ops[m.ip] := List.getElem?_eq_getElem hip
    have hop := hno ops[m.ip] (List.getElem_mem hip)
    rw [List.drop_eq_getElem_cons hip]
    simp only [applyOps]
    cases hd : dispatch ops[m.ip] m with
    | error e =>
      have hs : execStep ops m = .error e := by simp [execStep, hget, hd]
      rw [execLoop]
      simp [hmod, hip, hs, Except.map]
    | ok m1 =>
      have hk := dispatch_keeps_ip _ hop.1 hop.2 m m1 hd
      have hs : execStep ops m = .ok (withIp (m.ip + 1) m1) := by
        have e : (m.ip + 1) % 65536 = m.ip + 1 := Nat.mod_eq_of_lt (by omega)
        simp [execStep, hget, hd, hk, e, withIp]
      rw [execLoop_step _ _ _ _ (by rw [hmod]; exact hip) hs,
        ih (withIp (m.ip + 1) m1) f (by simp only [withIp]; omega) (by omega)]
      simp only [withIp]
      have := applyOps_withIp (ops.drop (m.ip + 1))
        (fun o ho => hno o (List.mem_of_mem_drop ho)) m1 (m.ip + 1)
      simp only [withIp] at this
      rw [this]
      cases applyOps (ops.drop (m.ip + 1)) m1 with
      | error e => rfl
      | ok r => rfl

theorem length_inputOps (n : Nat) : (inputOps n).length = n := by
  simp [inputOps]

theorem command_inputOps (n : Nat) (o : BfOp) (ho : o ∈ inputOps n) : o.Command = 44 := by
  simp only [inputOps, List.mem_map] at ho
  obtain ⟨i, _, rfl⟩ := ho
  rfl

/-- When the number of operations is a multiple of 65536, `uint16(len(ops))` is 0 and the loop
of `execute` does not run at all. -/
theorem execute_wrapped_inputs (n fuel : Nat) (input : List Nat) (hn : n % 65536 = 0) :
    execute fuel (inputOps n) input = .ok (Machine.init input) := by
  unfold execute
  apply execLoop_halt
  rw [length_inputOps, hn]
  simp [Machine.init]

/-- C17 (evaluation of the code where the claim fails): the source of 65536 input commands
translates into a program of 65536 input operations, none of them a loop-open or loop-close.
`execute` performs no step on it: it halts at once with the instruction pointer at 0 and the
input untouched, because `uint16(len(ops))` is 0. -/
theorem execute_65536_operations_runs_none :
    translate (List.replicate 65536 44) = .ok (inputOps 65536) ∧
    (inputOps 65536).length = 65536 ∧
    (∀ o ∈ inputOps 65536, o.Command ≠ 91 ∧ o.Command ≠ 93) ∧
    execute 65536 (inputOps 65536) [1, 2, 3] = .ok (Machine.init [1, 2, 3]) :=
  ⟨translate_inputs 65536 (by norm_num), length_inputOps 65536,
    fun o ho => by rw [command_inputOps 65536 o ho]; decide,
    execute_wrapped_inputs 65536 65536 [1, 2, 3] (by norm_num)⟩

/-! ## A loop entered with a zero cell -/

theorem consumeRun_append_nonrep (cmd rc c : Nat) (hc : c ∉ REPEATABLE_COMMANDS)
    (rest t : List Nat) :
    consumeRun cmd rc (rest ++ c :: t)
      = ((consumeRun cmd rc rest).1, (consumeRun cmd rc rest).2 ++ c :: t) := by
  induction rest generalizing rc with
  | nil =>
    by_cases h : cmd = c
    · subst h; simp [consumeRun, hc]
    · have : c ≠ cmd := fun e => h e.symm
      simp [consumeRun, this]
  | cons b r ih =>
    simp only [List.cons_append, consumeRun]
    split
    · rfl
    · exact ih _

/-- Scanning `src` followed by a command that is not repeatable is scanning `src` and then
going on from that command: no run extends over it. -/
theorem translateLoop_append_nonrep (fuel c : Nat) (hc : c ∉ REPEATABLE_COMMANDS)
    (src t : List Nat) (st : TState) (hf : (src ++ c :: t).length ≤ fuel) :
    translateLoop fuel (src ++ c :: t) st
      = match translateLoop fuel src st with
        | .error e => .error e
        | .ok st1 => translateLoop fuel (c :: t) st1 := by
  induction fuel generalizing src st with
  | zero => simp at hf
  | succ f ih =>
    cases src with
    | nil => simp [translateLoop_nil]
    | cons b rest =>
      rw [List.cons_append, translateLoop_cons, translateLoop_cons,
        consumeRun_append_nonrep _ _ _ hc]
      simp only [List.cons_append, List.length_cons, List.length_append] at hf
      have hrl := consumeRun_length b 1 rest
      cases translateStep b (consumeRun b 1 rest).1 st with
      | error e => rfl
      | ok st2 =>
        simp only
        rw [ih _ st2 (by simp only [List.length_append, List.length_cons]; omega)]
        cases translateLoop f (consumeRun b 1 rest).2 st2 with
        | error e => rfl
        | ok st3 =>
          simp only
          exact translateLoop_fuel _ _ _ _ (by simp only [List.length_cons]; omega)
            (by simp only [List.length_cons]; omega)

/-- In the rewrite of `[-]` the loop-open that was popped is not behind the decrement. -/
theorem clear_open_le (st : TState) (s : Nat) (stk : List Nat) (o : BfOp) (hinv : Inv st)
    (hs : st.jumpsStack = s :: stk) (ho : st.ops[s]? = some o) (pre : List BfOp) (c b : BfOp)
    (hpre : st.ops.set s { o with TargetIndex := st.ops.length } = pre ++ [c, b])
    (hb : b.Command = 45) : s ≤ pre.length := by
  have hsin : s ∈ st.jumpsStack := by simp [hs]
  obtain ⟨o1, ho1, hoc⟩ := hinv.stack_open s hsin
  rw [ho] at ho1; cases ho1
  have hsn : s < st.ops.length := lt_of_getElem?_eq_some ho
  have hn : st.ops.length = pre.length + 2 := by
    have := congrArg List.length hpre
    simp at this
    omega
  have get_s : (st.ops.set s { o with TargetIndex := st.ops.length })[s]?
      = some { o with TargetIndex := st.ops.length } := by simp [hsn]
  have get_b : (pre ++ [c, b])[pre.length + 1]? = some b := getElem?_append_add pre [c, b] 1
  have hs1 : s ≠ pre.length + 1 := by
    intro e
    rw [hpre, e, get_b] at get_s
    cases get_s
    rw [hoc] at hb; cases hb
  omega

/-- In the rewrite of `[-]` the loop-open that was popped is the one of the idiom. -/
theorem clear_open_eq (st : TState) (s : Nat) (stk : List Nat) (o : BfOp) (hinv : Inv st)
    (hp : Paired st) (hs : st.jumpsStack = s :: stk) (ho : st.ops[s]? = some o)
    (pre : List BfOp) (c b : BfOp)
    (hpre : st.ops.set s { o with TargetIndex := st.ops.length } = pre ++ [c, b])
    (hc : c.Command = 91) (hb : b.Command = 45) : s = pre.length := by
  have hle := clear_open_le st s stk o hinv hs ho pre c b hpre hb
  have hsorted := hinv.stack_sorted
  rw [hs, List.pairwise_cons] at hsorted
  have hn : st.ops.length = pre.length + 2 := by
    have := congrArg List.length hpre
    simp at this
    omega
  have get_c : (pre ++ [c, b])[pre.length + 0]? = some c := getElem?_append_add pre [c, b] 0
  have get_b : (pre ++ [c, b])[pre.length + 1]? = some b := getElem?_append_add pre [c, b] 1
  have hbold : st.ops[pre.length + 1]? = some b := by
    rw [← List.getElem?_set_ne (by omega : s ≠ pre.length + 1), hpre]; exact get_b
  by_contra hne
  have hcold : st.ops[pre.length]? = some c := by
    rw [← List.getElem?_set_ne hne, hpre]; exact get_c
  rcases hp.opens pre.length c hcold hc with h1 | h1
  · rw [hs] at h1
    simp at h1
    rcases h1 with h1 | h1
    · omega
    · have := hsorted.1 _ h1; omega
  · obtain ⟨x, y, _, h3, _, hy, _, _, hij⟩ := h1
    have hj := lt_of_getElem?_eq_some h3
    have : c.TargetIndex = pre.length + 1 := by omega
    rw [this, hbold] at h3
    cases h3
    rw [hb] at hy; cases hy

theorem aboveBase_step (base : List Nat) (ops0 : List BfOp) (new : List Nat) (cmd rc : Nat)
    (st st1 : TState) (hinv : Inv st) (ha : AboveBase base ops0 new st)
    (hshape : StepShape cmd rc st st1) (hnew : cmd = 93 → new ≠ []) :
    ∃ new1, AboveBase base ops0 new1 st1 ∧
      new1.length + (if cmd = 93 then 1 else 0) = new.length + (if cmd = 91 then 1 else 0) := by
  cases hshape with
  | plain h hops hstack =>
    refine ⟨if cmd = 91 then st.ops.length :: new else new, ⟨?_, ?_, ?_, ?_⟩, ?_⟩
    · rw [hstack, ha.stack]; split <;> simp
    · intro x hx
      split at hx
      · rcases List.mem_cons.mp hx with e | e
        · rw [e]; exact ha.len
        · exact ha.above x e
      · exact ha.above x hx
    · intro i hi
      rw [hops, List.getElem?_append_left (by have := ha.len; omega)]
      exact ha.agree i hi
    · rw [hops]; simp; have := ha.len; omega
    · by_cases h91 : cmd = 91 <;> simp [h, h91]
  | close h s stk o hs ho hops hstack hno =>
    have hst := ha.stack
    rw [hs] at hst
    cases hn : new with
    | nil => exact absurd hn (hnew h)
    | cons x new1 =>
      rw [hn, List.cons_append] at hst
      obtain ⟨hx, hstk⟩ := List.cons.inj hst
      have hsL : ops0.length ≤ s := by rw [hx]; exact ha.above x (by rw [hn]; simp)
      refine ⟨new1, ⟨?_, ?_, ?_, ?_⟩, ?_⟩
      · rw [hstack, hstk]
      · intro y hy; exact ha.above y (by rw [hn]; simp [hy])
      · intro i hi
        rw [hops, List.getElem?_append_left (by simp; have := ha.len; omega),
          List.getElem?_set_ne (by omega)]
        exact ha.agree i hi
      · rw [hops]; simp; have := ha.len; omega
      · simp [h]
  | clear h s stk o hs ho pre c b hpre hc hb hops hstack =>
    have hst := ha.stack
    rw [hs] at hst
    have hle := clear_open_le st s stk o hinv hs ho pre c b hpre hb
    cases hn : new with
    | nil => exact absurd hn (hnew h)
    | cons x new1 =>
      rw [hn, List.cons_append] at hst
      obtain ⟨hx, hstk⟩ := List.cons.inj hst
      have hsL : ops0.length ≤ s := by rw [hx]; exact ha.above x (by rw [hn]; simp)
      refine ⟨new1, ⟨?_, ?_, ?_, ?_⟩, ?_⟩
      · rw [hstack, hstk]
      · intro y hy; exact ha.above y (by rw [hn]; simp [hy])
      · intro i hi
        have e1 : st1.ops[i]? = pre[i]? := by rw [hops, List.getElem?_append_left (by omega)]
        have e2 : (pre ++ [c, b])[i]? = pre[i]? := List.getElem?_append_left (by omega)
        have e3 : (st.ops.set s { o with TargetIndex := st.ops.length })[i]? = st.ops[i]? :=
          List.getElem?_set_ne (by omega)
        rw [e1, ← e2, ← hpre, e3]
        exact ha.agree i hi
      · rw [hops]; simp; omega
      · simp [h]

/-- Along a stretch of source whose brackets never close more than the stretch has opened,
the stack below the stretch and the operations before it stay as they were. -/
theorem translateLoop_aboveBase (base : List Nat) (ops0 : List BfOp) (fuel : Nat)
    (src : List Nat) (st : TState) (new : List Nat) (st1 : TState) (d : Nat) (hinv : Inv st)
    (hlen : st.ops.length + src.length < 2 ^ 32) (ha : AboveBase base ops0 new st)
    (hd : bracketDepth new.length src = some d) (h : translateLoop fuel src st = .ok st1) :
    ∃ new1, AboveBase base ops0 new1 st1 ∧ new1.length = d := by
  induction fuel generalizing src st new with
  | zero =>
    cases src with
    | nil =>
      rw [translateLoop_nil] at h; cases h
      simp only [bracketDepth, Option.some.injEq] at hd
      exact ⟨new, ha, hd⟩
    | cons b rest => simp [translateLoop] at h
  | succ f ih =>
    cases src with
    | nil =>
      rw [translateLoop_nil] at h; cases h
      simp only [bracketDepth, Option.some.injEq] at hd
      exact ⟨new, ha, hd⟩
    | cons b rest =>
      rw [translateLoop_cons] at h
      simp only [List.length_cons] at hlen
      obtain ⟨k, hk1, _, hk3⟩ := consumeRun_spec b 1 rest (by norm_num)
      have hrl := consumeRun_length b 1 rest
      cases hst : translateStep b (consumeRun b 1 rest).1 st with
      | error e => rw [hst] at h; cases h
      | ok st2 =>
        rw [hst] at h
        obtain ⟨hshape, hidx⟩ := translateStep_shape _ _ _ _ hinv (by omega) hst
        have hle := hshape.length_le
        have hinv2 := hshape.inv hinv hidx
        by_cases h93 : b = 93
        · subst h93
          have hn0 : new.length ≠ 0 := by
            intro e
            simp [bracketDepth, e] at hd
          have hd1 : bracketDepth (new.length - 1) rest = some d := by
            simpa [bracketDepth, hn0] using hd
          obtain ⟨new1, ha1, hl1⟩ := aboveBase_step base ops0 new 93 _ st st2 hinv ha hshape
            (fun _ e => hn0 (by rw [e]; rfl))
          simp at hl1
          rw [consumeRun_not_repeatable 93 (by decide) 1 rest] at h
          exact ih rest st2 new1 hinv2 (by omega) ha1
            (by rw [show new1.length = new.length - 1 by omega]; exact hd1) h
        · obtain ⟨new1, ha1, hl1⟩ := aboveBase_step base ops0 new b _ st st2 hinv ha hshape
            (fun e => absurd e h93)
          by_cases h91 : b = 91
          · subst h91
            simp at hl1
            rw [consumeRun_not_repeatable 91 (by decide) 1 rest] at h
            have hd1 : bracketDepth (new.length + 1) rest = some d := by
              simpa [bracketDepth] using hd
            exact ih rest st2 new1 hinv2 (by omega) ha1 (by rw [hl1]; exact hd1) h
          · simp [h91, h93] at hl1
            have hd1 : bracketDepth new.length rest = some d := by
              simpa [bracketDepth, h91, h93] using hd
            rw [hk1, bracketDepth_replicate b h91 h93] at hd1
            exact ih _ st2 new1 hinv2 (by omega) ha1 (by rw [hl1]; exact hd1) h

/-- The program for `[` B `]` with balanced `B`: either the single clear operation, or a
program whose first operation is the loop-open with the last position as jump target. -/
theorem translate_bracketed (B : List Nat) (hlen : B.length + 2 < 2 ^ 32) (hB : Balanced B) :
    ∃ p, translate (91 :: (B ++ [93])) = .ok p ∧
      (p = [⟨0, 122, 1, 0⟩] ∨ ∃ n, p[0]? = some ⟨0, 91, 1, n⟩ ∧ p.length = n + 1) := by
  have h1 : translateLoop 1 [91] TState.init = .ok ⟨[⟨0, 91, 1, 0⟩], [0], 1⟩ := rfl
  obtain ⟨hinv1, hp1⟩ := translateLoop_invariant Paired
    (fun st cmd rc st1 hinv _ hp _ _ hshape _ => paired_step st cmd rc st1 hinv hp hshape)
    _ _ _ _ inv_init (by simp [TState.init]) paired_init h1
  have hdB : bracketDepth 0 B = some 0 := by
    rw [bracketDepth_some_of_count B 0 (by intro k hk; simpa using hB.1 k hk), hB.2]
    simp
  have hdB1 : bracketDepth 1 B = some 1 := by
    rw [bracketDepth_some_of_count B 1 (by intro k hk; have := hB.1 k hk; omega), hB.2]
    simp
  have hb1 : (⟨[⟨0, 91, 1, 0⟩], [0], 1⟩ : TState).ops.length + B.length < 2 ^ 32 := by
    simp only [List.length_singleton]; omega
  have hloopB := translateLoop_depth B.length B ⟨[⟨0, 91, 1, 0⟩], [0], 1⟩ hinv1 hb1
    (Nat.le_refl _)
  simp only [List.length_singleton] at hloopB
  rw [hdB1] at hloopB
  obtain ⟨st2, h2, _⟩ := hloopB
  obtain ⟨hinv2, hp2⟩ := translateLoop_invariant Paired
    (fun st cmd rc st1 hinv _ hp _ _ hshape _ => paired_step st cmd rc st1 hinv hp hshape)
    _ _ _ _ hinv1 hb1 hp1 h2
  obtain ⟨new1, hab, hnew1⟩ := translateLoop_aboveBase [0] [⟨0, 91, 1, 0⟩] B.length B
    ⟨[⟨0, 91, 1, 0⟩], [0], 1⟩ [] st2 0 hinv1 hb1
    ⟨rfl, by simp, fun _ _ => rfl, Nat.le_refl _⟩ hdB h2
  have hnil : new1 = [] := List.length_eq_zero.mp hnew1
  subst hnil
  have hs2 : st2.jumpsStack = 0 :: [] := hab.stack
  have hget0 : st2.ops[0]? = some ⟨0, 91, 1, 0⟩ := hab.agree 0 (by simp)
  have hlen2 := translateLoop_length _ _ _ _ hinv1 hb1 h2
  simp only [List.length_singleton] at hlen2
  obtain ⟨st3, hst3, hshape, _⟩ := translateStep_close 1 st2 hinv2 (by omega) 0 [] hs2
  have hwhole : translateLoop (B.length + 1 + 1) (91 :: (B ++ [93])) TState.init = .ok st3 := by
    rw [translateLoop_cons, consumeRun_not_repeatable 91 (by decide) 1 _,
      translateStep_of_ne 91 1 TState.init (by decide)]
    show translateLoop (B.length + 1) (B ++ 93 :: []) ⟨[⟨0, 91, 1, 0⟩], [0], 1⟩ = _
    rw [translateLoop_append_nonrep (B.length + 1) 93 (by decide) B [] _ (by simp),
      translateLoop_fuel (B.length + 1) B.length B _ (by omega) (Nat.le_refl _), h2]
    simp only
    rw [translateLoop_cons, consumeRun_not_repeatable 93 (by decide) 1 _, hst3]
    simp only [translateLoop_nil]
  have hl : (91 :: (B ++ [93])).length = B.length + 1 + 1 := by simp
  have hsl : sourceLength (91 :: (B ++ [93])) = B.length + 1 + 1 := by
    unfold sourceLength
    rw [hl]
    exact Nat.mod_eq_of_lt (by omega)
  refine ⟨st3.ops, by rw [translate_eq, scanned_of_lt _ (by rw [hl]; omega), hsl, hwhole], ?_⟩
  cases hshape with
  | plain h hops hstack => exact absurd rfl h
  | close h s stk o hs ho hops hstack hno =>
    rw [hs2] at hs
    obtain ⟨hs0, _⟩ := List.cons.inj hs
    subst hs0
    rw [hget0] at ho
    cases ho
    right
    refine ⟨st2.ops.length, ?_, ?_⟩
    · have hpos : 0 < st2.ops.length := lt_of_getElem?_eq_some hget0
      rw [hops, List.getElem?_append_left (by simpa using hpos), List.getElem?_set_self hpos]
    · rw [hops]; simp
  | clear h s stk o hs ho pre c b hpre hc hb hops hstack =>
    have heq := clear_open_eq st2 s stk o hinv2 hp2 hs ho pre c b hpre hc hb
    rw [hs2] at hs
    obtain ⟨hs0, _⟩ := List.cons.inj hs
    subst hs0
    have hpn : pre = [] := List.length_eq_zero.mp heq.symm
    subst hpn
    left
    rw [hops]
    rfl

theorem getD_replicate_zero (n i : Nat) : (List.replicate n 0).getD i 0 = 0 := by
  simp only [List.getD_eq_getElem?_getD, List.getElem?_replicate]
  split <;> rfl

theorem readCell_init (input : List Nat) :
    readCell (Machine.init input).mem (Machine.init input).ptr = .ok 0 := by
  show readCell (List.replicate MAX_MEM 0) 0 = .ok 0
  rw [readCell_ok _ _ (Int.le_refl 0) (show (0 : Int) < ((3000 : Nat) : Int) by norm_num),
    getD_replicate_zero]

/-- Running, from the fresh state, a program that starts with a loop-open whose jump target is
the last position: one loop iteration at most, and nothing but the instruction pointer has
changed. -/
theorem execute_skips_loop (p : List BfOp) (n fuel : Nat) (input : List Nat)
    (h0 : p[0]? = some ⟨0, 91, 1, n⟩) (hl : p.length = n + 1) (hf : 1 ≤ fuel) :
    ∃ m, execute fuel p input = .ok m ∧ m.output = [] ∧ m.input = input ∧
      m.mem = List.replicate MAX_MEM 0 ∧ m.ptr = 0 := by
  unfold execute
  by_cases hr : (n + 1) % 65536 = 0
  · refine ⟨Machine.init input, execLoop_halt _ _ _ (by rw [hl, hr]; simp [Machine.init]),
      rfl, rfl, rfl, rfl⟩
  · obtain ⟨f, rfl⟩ : ∃ f, fuel = f + 1 := ⟨fuel - 1, by omega⟩
    have hs : execStep p (Machine.init input)
        = .ok (withIp ((n % 65536 + 1) % 65536) (Machine.init input)) := by
      have hg : p[(Machine.init input).ip]? = some ⟨0, 91, 1, n⟩ := h0
      simp only [execStep, hg, dispatch, readCell_init]
      simp [withIp]
    rw [execLoop_step _ _ _ _ (by rw [hl]; simp only [Machine.init]; omega) hs]
    refine ⟨_, execLoop_halt _ _ _ (by rw [hl]; simp only [withIp]; omega), rfl, rfl, rfl, rfl⟩

/-- Running the single clear operation from the fresh state leaves every cell at 0. -/
theorem execute_clear_fresh (fuel : Nat) (input : List Nat) (hf : 1 ≤ fuel) :
    ∃ m, execute fuel [⟨0, 122, 1, 0⟩] input = .ok m ∧ m.output = [] ∧ m.input = input ∧
      m.mem = List.replicate MAX_MEM 0 ∧ m.ptr = 0 := by
  unfold execute
  obtain ⟨f, rfl⟩ : ∃ f, fuel = f + 1 := ⟨fuel - 1, by omega⟩
  have hw : writeCell (Machine.init input).mem (Machine.init input).ptr 0
      = .ok (List.replicate MAX_MEM 0) := by
    show writeCell (List.replicate MAX_MEM 0) 0 0 = _
    rw [writeCell_ok _ _ _ (Int.le_refl 0) (show (0 : Int) < ((3000 : Nat) : Int) by norm_num),
      set_zero_of_getD_zero _ _ (getD_replicate_zero _ _)]
  have hs : execStep [⟨0, 122, 1, 0⟩] (Machine.init input)
      = .ok (withIp 1 (Machine.init input)) := by
    have hg : ([⟨0, 122, 1, 0⟩] : List BfOp)[(Machine.init input).ip]?
        = some ⟨0, 122, 1, 0⟩ := rfl
    simp only [execStep, hg, dispatch, hw]
    simp [withIp, Machine.init]
  rw [execLoop_step _ _ _ _ (by simp [Machine.init]) hs]
  exact ⟨_, execLoop_halt _ _ _ (by simp [withIp]), rfl, rfl, rfl, rfl⟩

theorem balanced_plus_inputs (n : Nat) : Balanced (43 :: List.replicate n 44) := by
  have h93 : ∀ l : List Nat, (∀ b ∈ l, b = 43 ∨ b = 44) → l.count 93 = 0 := by
    intro l hl
    apply List.count_eq_zero_of_not_mem
    intro hm
    rcases hl 93 hm with e | e <;> omega
  have hall : ∀ b ∈ 43 :: List.replicate n 44, b = 43 ∨ b = 44 := by
    intro b hb
    rcases List.mem_cons.mp hb with e | e
    · exact Or.inl e
    · exact Or.inr (List.eq_of_mem_replicate e)
  constructor
  · intro k _
    rw [h93 _ (fun b hb => hall b (List.mem_of_mem_take hb))]
    omega
  · rw [h93 _ hall]
    symm
    apply List.count_eq_zero_of_not_mem
    intro hm
    rcases hall 91 hm with e | e <;> omega

theorem translate_bracketed_wrapped (n : Nat) (hn : (n + 3) % 2 ^ 32 = 2) :
    translate (91 :: ((43 :: List.replicate n 44) ++ [93]))
      = .ok [⟨0, 91, 1, 0⟩, ⟨1, 43, 1, 0⟩] := by
  have hl : sourceLength (91 :: ((43 :: List.replicate n 44) ++ [93])) = 2 := by
    unfold sourceLength
    rw [List.length_cons, List.length_append, List.length_cons, List.length_replicate,
      List.length_singleton]
    omega
  have hsc : scanned (91 :: ((43 :: List.replicate n 44) ++ [93])) = [91, 43] := by
    unfold scanned
    rw [hl, List.cons_append, show (2 : Nat) = 0 + 1 + 1 from rfl, List.take_succ_cons,
      List.take_succ_cons, List.take_zero]
  rw [translate_eq, hl, hsc]
  rfl

/-- C18 (counterexample): `B` is `+` followed by 2^32 - 1 input commands, balanced since it has
no bracket. `[` B `]` has 2^32 + 2 bytes, `sourceLength` is `uint32(len(source))` = 2, only
`[+` is scanned, the loop-open keeps jump target 0, and execution goes on into the `+`: the
run halts with 1 in the first cell. -/
theorem zero_cell_loop_longer_than_uint32 :
    Balanced (43 :: List.replicate 4294967295 44) ∧
    translate (91 :: ((43 :: List.replicate 4294967295 44) ++ [93]))
      = .ok [⟨0, 91, 1, 0⟩, ⟨1, 43, 1, 0⟩] ∧
    (execute 2 [⟨0, 91, 1, 0⟩, ⟨1, 43, 1, 0⟩] []).map (fun r => (r.mem.getD 0 0, r.ip))
      = .ok (1, 2) :=
  ⟨balanced_plus_inputs 4294967295, translate_bracketed_wrapped 4294967295 (by norm_num),
    by decide⟩

/-- C18 (amended): for every source `B` with balanced brackets and `[` B `]` shorter than
2^32 bytes, `translate` returns a program for `[` B `]`, and executing it from the fresh
state halts (one loop iteration is enough) with no output, the input untouched, all 3000
cells 0 and the pointer 0. -/
theorem zero_cell_loop_skipped (B input : List Nat) (fuel : Nat)
    (hlen : B.length + 2 < 2 ^ 32) (hB : Balanced B) (hf : 1 ≤ fuel) :
    ∃ p m, translate (91 :: (B ++ [93])) = .ok p ∧ execute fuel p input = .ok m ∧
      m.output = [] ∧ m.input = input ∧ m.mem = List.replicate MAX_MEM 0 ∧ m.ptr = 0 := by
  obtain ⟨p, hp, hshape⟩ := translate_bracketed B hlen hB
  rcases hshape with rfl | ⟨n, h0, hl⟩
  · obtain ⟨m, hm⟩ := execute_clear_fresh fuel input hf
    exact ⟨_, m, hp, hm⟩
  · obtain ⟨m, hm⟩ := execute_skips_loop p n fuel input h0 hl hf
    exact ⟨p, m, hp, hm⟩

theorem zero_cell_loop_skipped_witness :
    ∃ p m, translate (91 :: ([43, 91, 45, 93, 46, 44] ++ [93])) = .ok p ∧
      execute 1 p [7, 8] = .ok m ∧
      m.output = [] ∧ m.input = [7, 8] ∧ m.mem = List.replicate MAX_MEM 0 ∧ m.ptr = 0 :=
  zero_cell_loop_skipped [43, 91, 45, 93, 46, 44] [7, 8] 1 (by decide) (by decide) (by decide)

end Gbf
